import Mathlib

/-!
Verification development for the backup program (`src/backup.py`, `src/main.py`).

The file system is modelled as an association list from paths (lists of
components) to entries: a regular file with byte contents, a directory, or a
zip-archive file holding a list of (relative path, entry) pairs.  The Python
file-system primitives (`os.path.exists`, `os.path.isdir`, `shutil.rmtree`,
`os.remove`, `os.makedirs`, `shutil.copytree`, `os.walk`, `zipfile`) are given
semantics over this model.  Exceptions that the primitives may raise are
injected through an `Oracle` record; `perform_backup` is then translated
statement by statement from `BackupManager.perform_backup`, returning the
`Except`-typed outcome of its try/except structure together with the final
file-system state.  Timestamps (`datetime.datetime.now`) are an explicit
input.  Logging is modelled only through the data it records: the returned
success flag and the files-count that appears in the final log line.
-/

/-- A file-system path, as a list of components (already split on `os.sep`). -/
abbrev BPath := List String

/-- A node of the modelled file system: a regular file with byte contents, a
directory, or a zip-archive file holding (relative path, entry) pairs. -/
inductive Entry where
  | file (data : List Nat)
  | dir
  | zipFile (entries : List (BPath × Entry))

/-- The file system: an association list from absolute paths to entries. -/
abbrev FS := List (BPath × Entry)

/-- `pathUnder p q` holds when `q` lies in the subtree rooted at `p`
(`p` is a prefix of `q`, including `q = p`). -/
def pathUnder : BPath → BPath → Bool
  | [], _ => true
  | _ :: _, [] => false
  | a :: p, b :: q => if a = b then pathUnder p q else false

/-- `stripUnder p q = some r` when `q = p ++ r` with `r ≠ []`:
the relative path of `q` below `p` (the model of `os.path.relpath`). -/
def stripUnder : BPath → BPath → Option BPath
  | [], [] => none
  | [], b :: q => some (b :: q)
  | _ :: _, [] => none
  | a :: p, b :: q => if a = b then stripUnder p q else none

/-- Look up the entry stored at a path (first match in the list). -/
def getEntry : FS → BPath → Option Entry
  | [], _ => none
  | x :: rest, p => if x.1 = p then some x.2 else getEntry rest p

/-- Store an entry at a path: replace the first binding with that key,
or append a new binding when the path is absent. -/
def setEntry : FS → BPath → Entry → FS
  | [], p, e => [(p, e)]
  | x :: rest, p, e => if x.1 = p then (p, e) :: rest else x :: setEntry rest p e

/-- Model of `os.path.exists`. -/
def pathExists (fs : FS) (p : BPath) : Bool := (getEntry fs p).isSome

/-- Model of `os.path.isdir`. -/
def isdir (fs : FS) (p : BPath) : Bool :=
  match getEntry fs p with
  | some Entry.dir => true
  | _ => false

/-- Model of `os.path.isfile` (zip archives on disk are regular files). -/
def isfile (fs : FS) (p : BPath) : Bool :=
  match getEntry fs p with
  | some (Entry.file _) => true
  | some (Entry.zipFile _) => true
  | _ => false

/-- Model of `shutil.rmtree`: remove the path and everything below it. -/
def rmtree (fs : FS) (p : BPath) : FS := fs.filter (fun x => !pathUnder p x.1)

/-- Model of `os.remove`: remove the single binding at the path. -/
def osRemove (fs : FS) (p : BPath) : FS := fs.filter (fun x => decide (x.1 ≠ p))

/-- All nonempty prefixes of a path, shortest first. -/
def pathPrefixes : BPath → List BPath
  | [] => []
  | a :: p => [a] :: (pathPrefixes p).map (a :: ·)

/-- One step of `os.makedirs`: create a single directory if absent. -/
def mkdirStep (acc : FS) (q : BPath) : FS :=
  if pathExists acc q then acc else acc ++ [(q, Entry.dir)]

/-- Model of `os.makedirs`: create the path and any missing ancestors as
directories (existing bindings are left untouched). -/
def makedirs (fs : FS) (p : BPath) : FS :=
  (pathPrefixes p).foldl mkdirStep fs

/-- The entries strictly below `p`, keyed by their path relative to `p`. -/
def subtreeEntries (fs : FS) (p : BPath) : List (BPath × Entry) :=
  fs.filterMap (fun x => (stripUnder p x.1).map (fun r => (r, x.2)))

/-- Write a list of (relative path, entry) pairs below `dst`. -/
def writeEntries (dst : BPath) (l : List (BPath × Entry)) (fs : FS) : FS :=
  l.foldl (fun acc y => setEntry acc (dst ++ y.1) y.2) fs

/-- Model of `shutil.copytree src dst` with `dirs_exist_ok=True`: ensure `dst`
is a directory, then write every entry of the `src` subtree below `dst`,
overwriting bindings that are already present. -/
def copytree (fs : FS) (src dst : BPath) : FS :=
  writeEntries dst (subtreeEntries fs src) (setEntry fs dst Entry.dir)

/-- How `os.walk` classifies one binding: a non-directory entry below `p` is
listed with its relative path, everything else is skipped. -/
def walkEntry (p : BPath) (x : BPath × Entry) : Option (BPath × Entry) :=
  match stripUnder p x.1, x.2 with
  | some r, Entry.file d => some (r, Entry.file d)
  | some r, Entry.zipFile es => some (r, Entry.zipFile es)
  | _, _ => none

/-- Model of the `os.walk` file enumeration used by the zip and count loops:
all non-directory entries below `p`, keyed by their relative path. -/
def walkFiles (fs : FS) (p : BPath) : List (BPath × Entry) :=
  fs.filterMap (walkEntry p)

/-- The exceptions distinguished by `perform_backup`'s except-clauses:
`PermissionError`, `shutil.Error`, `zipfile.BadZipFile`, and any other
`Exception`. -/
inductive Err where
  | permissionError
  | shutilError
  | badZipFile
  | otherError
deriving DecidableEq

/-- Error injection for the fallible file-system primitives: `none` means the
operation succeeds, `some e` means it raises `e`. -/
structure Oracle where
  rmtreeErr : Option Err
  removeErr : Option Err
  makedirsErr : Option Err
  copytreeErr : Option Err
  zipWriteErr : Option Err

/-- The oracle under which every file-system operation succeeds. -/
def Oracle.allOk : Oracle := ⟨none, none, none, none, none⟩

/-- The value of `datetime.datetime.now()` at the start of a backup run. -/
structure DateTime where
  year : Nat
  month : Nat
  day : Nat
  hour : Nat
  minute : Nat
  second : Nat

/-- Zero-padding to two digits, as `strftime` does for `%m %d %H %M %S`. -/
def pad2 (n : Nat) : String := if n < 10 then "0" ++ toString n else toString n

/-- Zero-padding to four digits, as `strftime` does for `%Y`. -/
def pad4 (n : Nat) : String :=
  if n < 10 then "000" ++ toString n
  else if n < 100 then "00" ++ toString n
  else if n < 1000 then "0" ++ toString n
  else toString n

/-- `now.strftime("%Y-%m-%d_%H-%M-%S")`. -/
def strftimeTimestamp (t : DateTime) : String :=
  pad4 t.year ++ "-" ++ pad2 t.month ++ "-" ++ pad2 t.day ++ "_" ++
    pad2 t.hour ++ "-" ++ pad2 t.minute ++ "-" ++ pad2 t.second

/-- `BackupManager._generate_backup_folder_name`. -/
def generate_backup_folder_name (base_name : String) (now : DateTime) : String :=
  base_name ++ "_" ++ strftimeTimestamp now ++ "_" ++ "v1.0.0"

/-- Model of `os.path.basename` on a component list. -/
def basename (p : BPath) : String := (p.getLast?).getD ""

/-- The `full_destination_path` computed in `perform_backup` (lines 119-125):
`os.path.join(base_destination_folder, name)` plus `".zip"` when compressing. -/
def full_destination_path (source_folder base_destination_folder : BPath)
    (compress : Bool) (now : DateTime) : BPath :=
  base_destination_folder ++
    [if compress then generate_backup_folder_name (basename source_folder) now ++ ".zip"
     else generate_backup_folder_name (basename source_folder) now]

/-- `BackupManager._count_files_in_folder`: total number of files reported by
walking the folder and all its subfolders. -/
def count_files_in_folder (fs : FS) (folder_path : BPath) : Nat :=
  (walkFiles fs folder_path).length

/-- `BackupManager._copy_folder_contents`: create the destination directory if
missing, then `copytree`; exceptions are re-raised to `perform_backup`. -/
def copy_folder_contents (o : Oracle) (fs : FS) (source_path destination_path : BPath) :
    Except Err Bool × FS :=
  if pathExists fs destination_path then
    match o.copytreeErr with
    | some e => (Except.error e, fs)
    | none => (Except.ok true, copytree fs source_path destination_path)
  else
    match o.makedirsErr with
    | some e => (Except.error e, fs)
    | none =>
      match o.copytreeErr with
      | some e => (Except.error e, makedirs fs destination_path)
      | none =>
        (Except.ok true, copytree (makedirs fs destination_path) source_path destination_path)

/-- `BackupManager._zip_folder_contents`: create the parent directory of the
zip if missing, then write a zip archive holding the walked files (the walk
snapshot is taken before the archive file itself is created); exceptions are
re-raised to `perform_backup`. -/
def zip_folder_contents (o : Oracle) (fs : FS) (source_path output_zip_path : BPath) :
    Except Err Bool × FS :=
  let output_dir := output_zip_path.dropLast
  if output_dir ≠ [] ∧ pathExists fs output_dir = false then
    match o.makedirsErr with
    | some e => (Except.error e, fs)
    | none =>
      match o.zipWriteErr with
      | some e => (Except.error e, makedirs fs output_dir)
      | none =>
        let fs1 := makedirs fs output_dir
        (Except.ok true, setEntry fs1 output_zip_path (Entry.zipFile (walkFiles fs1 source_path)))
  else
    match o.zipWriteErr with
    | some e => (Except.error e, fs)
    | none =>
      (Except.ok true, setEntry fs output_zip_path (Entry.zipFile (walkFiles fs source_path)))

/-- Lines 134-142 of `perform_backup`: delete a pre-existing artifact at the
computed destination path (`rmtree` for a directory, `os.remove` for a file). -/
def cleanup_destination (o : Oracle) (fs : FS) (full_destination : BPath) :
    Except Err Unit × FS :=
  if pathExists fs full_destination then
    if isdir fs full_destination then
      match o.rmtreeErr with
      | some e => (Except.error e, fs)
      | none => (Except.ok (), rmtree fs full_destination)
    else if isfile fs full_destination then
      match o.removeErr with
      | some e => (Except.error e, fs)
      | none => (Except.ok (), osRemove fs full_destination)
    else (Except.ok (), fs)
  else (Except.ok (), fs)

/-- The except-clauses of `perform_backup` (lines 158-169): every raised
exception is caught, leaving `success = False` and `files_count = 0` for the
final log line. -/
def catchBackupError (e : Err) : Bool × Nat :=
  match e with
  | Err.permissionError => (false, 0)
  | Err.shutilError => (false, 0)
  | Err.badZipFile => (false, 0)
  | Err.otherError => (false, 0)

/-- `BackupManager.perform_backup`.  The first component is the result of the
try/except/finally structure: `Except.ok (success, files_count)` when the call
returns normally (with the values the final log line records), `Except.error`
if an exception were to escape.  The second component is the final file
system. -/
def perform_backup (o : Oracle) (now : DateTime) (fs : FS)
    (source_folder base_destination_folder : BPath) (compress : Bool) :
    Except Err (Bool × Nat) × FS :=
  if pathExists fs source_folder = false then (Except.ok (false, 0), fs)
  else if isdir fs source_folder = false then (Except.ok (false, 0), fs)
  else
    match cleanup_destination o fs
        (full_destination_path source_folder base_destination_folder compress now) with
    | (Except.error e, fs1) => (Except.ok (catchBackupError e), fs1)
    | (Except.ok _, fs1) =>
      match (if compress then
              zip_folder_contents o fs1 source_folder
                (full_destination_path source_folder base_destination_folder compress now)
             else
              copy_folder_contents o fs1 source_folder
                (full_destination_path source_folder base_destination_folder compress now)) with
      | (Except.error e, fs2) => (Except.ok (catchBackupError e), fs2)
      | (Except.ok success, fs2) =>
        (Except.ok (success, if success then count_files_in_folder fs2 source_folder else 0), fs2)

/-- Well-formedness of a modelled file system: paths are bound at most once,
and every proper nonempty ancestor of a bound path is bound as a directory. -/
def FS.wf (fs : FS) : Prop :=
  (fs.map Prod.fst).Nodup ∧
  ∀ x ∈ fs, ∀ p ∈ pathPrefixes x.1, p ≠ x.1 → isdir fs p = true


/-! ### Path lemmas -/

theorem pathUnder_cons_same (a : String) (p q : BPath) :
    pathUnder (a :: p) (a :: q) = pathUnder p q := by
  simp [pathUnder]

theorem pathUnder_cons_ne {a b : String} (h : ¬ a = b) (p q : BPath) :
    pathUnder (a :: p) (b :: q) = false := by
  simp [pathUnder, h]

theorem stripUnder_cons_same (a : String) (p q : BPath) :
    stripUnder (a :: p) (a :: q) = stripUnder p q := by
  simp [stripUnder]

theorem stripUnder_cons_ne {a b : String} (h : ¬ a = b) (p q : BPath) :
    stripUnder (a :: p) (b :: q) = none := by
  simp [stripUnder, h]

theorem pathUnder_iff (p q : BPath) : pathUnder p q = true ↔ ∃ r, q = p ++ r := by
  induction p generalizing q with
  | nil => simp [pathUnder]
  | cons a p ih =>
    cases q with
    | nil => simp [pathUnder]
    | cons b q =>
      by_cases hab : a = b
      · subst hab
        rw [pathUnder_cons_same, ih]
        constructor
        · rintro ⟨r, rfl⟩; exact ⟨r, rfl⟩
        · rintro ⟨r, hr⟩
          rw [List.cons_append] at hr
          exact ⟨r, (List.cons.inj hr).2⟩
      · rw [pathUnder_cons_ne hab]
        constructor
        · intro h; cases h
        · rintro ⟨r, hr⟩
          rw [List.cons_append] at hr
          exact absurd (List.cons.inj hr).1.symm hab

theorem pathUnder_append (p r : BPath) : pathUnder p (p ++ r) = true :=
  (pathUnder_iff p (p ++ r)).2 ⟨r, rfl⟩

theorem pathUnder_refl (p : BPath) : pathUnder p p = true := by
  simpa using pathUnder_append p []

theorem eq_nil_of_pathUnder_nil {p : BPath} (h : pathUnder p [] = true) : p = [] := by
  cases p with
  | nil => rfl
  | cons a q => cases h

theorem pathUnder_comparable : ∀ (z p q : BPath), pathUnder p z = true →
    pathUnder q z = true → pathUnder p q = true ∨ pathUnder q p = true := by
  intro z
  induction z with
  | nil =>
    intro p q hp _
    rw [eq_nil_of_pathUnder_nil hp]
    left; rfl
  | cons c z ih =>
    intro p q hp hq
    cases p with
    | nil => left; rfl
    | cons a p =>
      cases q with
      | nil => right; rfl
      | cons b q =>
        by_cases hac : a = c
        · subst hac
          rw [pathUnder_cons_same] at hp
          by_cases hbc : b = a
          · subst hbc
            rw [pathUnder_cons_same] at hq
            rcases ih p q hp hq with h | h
            · left; rw [pathUnder_cons_same]; exact h
            · right; rw [pathUnder_cons_same]; exact h
          · rw [pathUnder_cons_ne hbc] at hq; cases hq
        · rw [pathUnder_cons_ne hac] at hp; cases hp

theorem append_ne_of_ne {dst r s : BPath} (h : ¬ r = s) : ¬ dst ++ r = dst ++ s := by
  intro hc
  exact h (List.append_cancel_left hc)

theorem append_cons_ne_self (dst : BPath) (a : String) (r : BPath) :
    ¬ dst ++ (a :: r) = dst := by
  intro hc
  have h2 : dst ++ (a :: r) = dst ++ ([] : BPath) := by rw [List.append_nil]; exact hc
  cases List.append_cancel_left h2

theorem stripUnder_eq_some_iff : ∀ (p q r : BPath),
    stripUnder p q = some r ↔ q = p ++ r ∧ ¬ r = [] := by
  intro p
  induction p with
  | nil =>
    intro q r
    cases q with
    | nil =>
      simp only [stripUnder, List.nil_append]
      constructor
      · intro h; cases h
      · rintro ⟨rfl, h⟩; exact absurd rfl h
    | cons b q =>
      simp only [stripUnder, List.nil_append, Option.some.injEq]
      constructor
      · rintro rfl; exact ⟨rfl, by simp⟩
      · rintro ⟨rfl, -⟩; rfl
  | cons a p ih =>
    intro q r
    cases q with
    | nil =>
      simp only [stripUnder, List.cons_append]
      constructor
      · intro h; cases h
      · rintro ⟨h, -⟩; cases h
    | cons b q =>
      by_cases hab : a = b
      · subst hab
        rw [stripUnder_cons_same, ih]
        rw [List.cons_append]
        constructor
        · rintro ⟨rfl, h⟩; exact ⟨rfl, h⟩
        · rintro ⟨hq, h⟩; exact ⟨(List.cons.inj hq).2, h⟩
      · rw [stripUnder_cons_ne hab, List.cons_append]
        constructor
        · intro h; cases h
        · rintro ⟨hq, -⟩; exact absurd (List.cons.inj hq).1.symm hab

theorem stripUnder_append {p r : BPath} (h : ¬ r = []) :
    stripUnder p (p ++ r) = some r :=
  (stripUnder_eq_some_iff p (p ++ r) r).2 ⟨rfl, h⟩

theorem stripUnder_self (p : BPath) : stripUnder p p = none := by
  cases hs : stripUnder p p with
  | none => rfl
  | some r =>
    obtain ⟨hq, hr⟩ := (stripUnder_eq_some_iff p p r).1 hs
    have h2 : p ++ [] = p ++ r := by simpa using hq
    exact absurd (List.append_cancel_left h2).symm hr

theorem stripUnder_eq_none_of_not_under {p q : BPath} (h : pathUnder p q = false) :
    stripUnder p q = none := by
  cases hs : stripUnder p q with
  | none => rfl
  | some r =>
    obtain ⟨rfl, -⟩ := (stripUnder_eq_some_iff p q r).1 hs
    rw [pathUnder_append] at h
    cases h

theorem mem_pathPrefixes_iff : ∀ (q p : BPath),
    p ∈ pathPrefixes q ↔ ¬ p = [] ∧ pathUnder p q = true := by
  intro q
  induction q with
  | nil =>
    intro p
    simp only [pathPrefixes, List.not_mem_nil, false_iff, not_and]
    intro hp hu
    exact hp (eq_nil_of_pathUnder_nil hu)
  | cons a q ih =>
    intro p
    simp only [pathPrefixes, List.mem_cons, List.mem_map]
    constructor
    · rintro (rfl | ⟨s, hs, rfl⟩)
      · exact ⟨by simp, by simp [pathUnder]⟩
      · obtain ⟨hne, hu⟩ := (ih s).1 hs
        refine ⟨by simp, ?_⟩
        rw [pathUnder_cons_same]
        exact hu
    · rintro ⟨hne, hu⟩
      cases p with
      | nil => exact absurd rfl hne
      | cons b s =>
        by_cases hba : b = a
        · subst hba
          rw [pathUnder_cons_same] at hu
          cases s with
          | nil => left; rfl
          | cons c s' =>
            right
            exact ⟨c :: s', (ih (c :: s')).2 ⟨by simp, hu⟩, rfl⟩
        · rw [pathUnder_cons_ne hba] at hu; cases hu

/-! ### Lookup and update lemmas -/

theorem mem_of_getEntry_eq_some : ∀ {fs : FS} {q : BPath} {e : Entry},
    getEntry fs q = some e → (q, e) ∈ fs := by
  intro fs
  induction fs with
  | nil => intro q e h; cases h
  | cons x rest ih =>
    intro q e h
    rw [getEntry] at h
    by_cases hx : x.1 = q
    · rw [if_pos hx] at h
      cases h
      have hx2 : x = (q, x.2) := by rw [← hx]
      rw [← hx2]
      exact List.mem_cons_self x rest
    · rw [if_neg hx] at h
      exact List.mem_cons_of_mem x (ih h)

theorem getEntry_eq_some_of_mem : ∀ {fs : FS} {q : BPath} {e : Entry},
    (fs.map Prod.fst).Nodup → (q, e) ∈ fs → getEntry fs q = some e := by
  intro fs
  induction fs with
  | nil => intro q e _ h; cases h
  | cons x rest ih =>
    intro q e hnd h
    rw [List.map_cons, List.nodup_cons] at hnd
    rw [getEntry]
    rcases List.mem_cons.1 h with rfl | hmem
    · rw [if_pos rfl]
    · by_cases hx : x.1 = q
      · exact absurd (hx ▸ List.mem_map_of_mem Prod.fst hmem) hnd.1
      · rw [if_neg hx]
        exact ih hnd.2 hmem

theorem getEntry_eq_none_iff : ∀ (fs : FS) (q : BPath),
    getEntry fs q = none ↔ ¬ q ∈ fs.map Prod.fst := by
  intro fs
  induction fs with
  | nil => intro q; simp [getEntry]
  | cons x rest ih =>
    intro q
    rw [getEntry, List.map_cons]
    by_cases hx : x.1 = q
    · rw [if_pos hx]
      constructor
      · intro h; cases h
      · intro h; exact absurd (hx ▸ List.mem_cons_self x.1 (rest.map Prod.fst)) h
    · rw [if_neg hx, ih]
      constructor
      · intro h hc
        rcases List.mem_cons.1 hc with rfl | hm
        · exact hx rfl
        · exact h hm
      · intro h hm
        exact h (List.mem_cons_of_mem x.1 hm)

theorem getEntry_append_of_some {l1 l2 : FS} {q : BPath} {e : Entry}
    (h : getEntry l1 q = some e) : getEntry (l1 ++ l2) q = some e := by
  induction l1 with
  | nil => cases h
  | cons x rest ih =>
    rw [getEntry] at h
    rw [List.cons_append, getEntry]
    by_cases hx : x.1 = q
    · rw [if_pos hx] at h ⊢; exact h
    · rw [if_neg hx] at h ⊢; exact ih h

theorem getEntry_append_of_none {l1 : FS} {q : BPath} (l2 : FS)
    (h : getEntry l1 q = none) : getEntry (l1 ++ l2) q = getEntry l2 q := by
  induction l1 with
  | nil => rfl
  | cons x rest ih =>
    rw [getEntry] at h
    rw [List.cons_append, getEntry]
    by_cases hx : x.1 = q
    · rw [if_pos hx] at h; cases h
    · rw [if_neg hx] at h ⊢; exact ih h

theorem getEntry_setEntry_self : ∀ (fs : FS) (p : BPath) (e : Entry),
    getEntry (setEntry fs p e) p = some e := by
  intro fs
  induction fs with
  | nil => intro p e; simp [setEntry, getEntry]
  | cons x rest ih =>
    intro p e
    rw [setEntry]
    by_cases hx : x.1 = p
    · rw [if_pos hx, getEntry, if_pos rfl]
    · rw [if_neg hx, getEntry, if_neg hx]
      exact ih p e

theorem getEntry_cons (p : BPath) (e : Entry) (rest : FS) (q : BPath) :
    getEntry ((p, e) :: rest) q = if p = q then some e else getEntry rest q := rfl

theorem getEntry_setEntry_ne : ∀ (fs : FS) {p q : BPath} (e : Entry), ¬ q = p →
    getEntry (setEntry fs p e) q = getEntry fs q := by
  intro fs
  induction fs with
  | nil =>
    intro p q e hq
    show getEntry [(p, e)] q = getEntry [] q
    rw [getEntry_cons, if_neg (fun h : p = q => hq h.symm)]
  | cons x rest ih =>
    intro p q e hq
    rw [setEntry]
    by_cases hx : x.1 = p
    · rw [if_pos hx, getEntry_cons, getEntry,
        if_neg (fun h : p = q => hq h.symm),
        if_neg (fun h : x.1 = q => hq (hx.symm.trans h).symm)]
    · rw [if_neg hx, getEntry, getEntry]
      by_cases hxq : x.1 = q
      · rw [if_pos hxq, if_pos hxq]
      · rw [if_neg hxq, if_neg hxq]
        exact ih e hq

/-! ### Deletion lemmas -/

theorem getEntry_rmtree_of_not_under {d q : BPath} (fs : FS)
    (h : pathUnder d q = false) : getEntry (rmtree fs d) q = getEntry fs q := by
  induction fs with
  | nil => rfl
  | cons x rest ih =>
    rw [rmtree, List.filter_cons]
    by_cases hk : pathUnder d x.1 = true
    · have hne : ¬ x.1 = q := by
        intro hc
        rw [hc, h] at hk
        cases hk
      rw [if_neg (by simp [hk]), getEntry, if_neg hne]
      exact ih
    · rw [if_pos (by simp [Bool.not_eq_true] at hk ⊢; exact hk), getEntry, getEntry]
      by_cases hxq : x.1 = q
      · rw [if_pos hxq, if_pos hxq]
      · rw [if_neg hxq, if_neg hxq]
        exact ih

theorem getEntry_rmtree_of_under {d q : BPath} (fs : FS)
    (h : pathUnder d q = true) : getEntry (rmtree fs d) q = none := by
  induction fs with
  | nil => rfl
  | cons x rest ih =>
    rw [rmtree, List.filter_cons]
    by_cases hk : pathUnder d x.1 = true
    · rw [if_neg (by simp [hk])]
      exact ih
    · rw [if_pos (by simp [Bool.not_eq_true] at hk ⊢; exact hk), getEntry]
      have hne : ¬ x.1 = q := by
        intro hc
        rw [hc, h] at hk
        exact hk rfl
      rw [if_neg hne]
      exact ih

theorem getEntry_osRemove_ne {p q : BPath} (fs : FS) (h : ¬ q = p) :
    getEntry (osRemove fs p) q = getEntry fs q := by
  induction fs with
  | nil => rfl
  | cons x rest ih =>
    rw [osRemove, List.filter_cons]
    by_cases hk : x.1 = p
    · have hne : ¬ x.1 = q := fun hc => h (hc ▸ hk)
      rw [if_neg (by simp [hk]), getEntry, if_neg hne]
      exact ih
    · rw [if_pos (by simp [hk]), getEntry, getEntry]
      by_cases hxq : x.1 = q
      · rw [if_pos hxq, if_pos hxq]
      · rw [if_neg hxq, if_neg hxq]
        exact ih

theorem getEntry_osRemove_self (p : BPath) (fs : FS) :
    getEntry (osRemove fs p) p = none := by
  induction fs with
  | nil => rfl
  | cons x rest ih =>
    rw [osRemove, List.filter_cons]
    by_cases hk : x.1 = p
    · rw [if_neg (by simp [hk])]
      exact ih
    · rw [if_pos (by simp [hk]), getEntry, if_neg hk]
      exact ih

/-! ### makedirs lemmas -/

theorem getEntry_mkdirStep_ne {p q : BPath} (acc : FS) (h : ¬ p = q) :
    getEntry (mkdirStep acc p) q = getEntry acc q := by
  rw [mkdirStep]
  by_cases he : pathExists acc p
  · rw [if_pos he]
  · rw [if_neg he]
    cases hg : getEntry acc q with
    | some e => exact getEntry_append_of_some hg
    | none =>
      have h1 : getEntry ([(p, Entry.dir)] : FS) q = none := by
        rw [getEntry_cons, if_neg h]
        rfl
      exact (getEntry_append_of_none _ hg).trans h1

theorem foldl_mkdirStep_getEntry : ∀ (l : List BPath) (acc : FS) (q : BPath),
    ¬ q ∈ l → getEntry (l.foldl mkdirStep acc) q = getEntry acc q := by
  intro l
  induction l with
  | nil => intro acc q _; rfl
  | cons p l ih =>
    intro acc q hq
    rw [List.foldl_cons]
    rw [ih _ q (fun hc => hq (List.mem_cons_of_mem p hc))]
    exact getEntry_mkdirStep_ne acc (fun hc => hq (hc ▸ List.mem_cons_self p l))

theorem getEntry_makedirs_of_not_under {d q : BPath} (fs : FS)
    (h : q = [] ∨ pathUnder q d = false) :
    getEntry (makedirs fs d) q = getEntry fs q := by
  rw [makedirs]
  refine foldl_mkdirStep_getEntry (pathPrefixes d) fs q (fun hc => ?_)
  obtain ⟨hne, hu⟩ := (mem_pathPrefixes_iff d q).1 hc
  rcases h with h | h
  · exact hne h
  · rw [hu] at h; cases h

/-! ### writeEntries lemmas -/

theorem writeEntries_nil (dst : BPath) (fs : FS) : writeEntries dst [] fs = fs := rfl

theorem writeEntries_cons (dst : BPath) (y : BPath × Entry) (l : List (BPath × Entry))
    (fs : FS) :
    writeEntries dst (y :: l) fs = writeEntries dst l (setEntry fs (dst ++ y.1) y.2) := rfl

theorem getEntry_writeEntries_of_ne : ∀ (l : List (BPath × Entry)) (dst : BPath) (fs : FS)
    (q : BPath), (∀ y ∈ l, ¬ q = dst ++ y.1) →
    getEntry (writeEntries dst l fs) q = getEntry fs q := by
  intro l
  induction l with
  | nil => intro dst fs q _; rfl
  | cons y l ih =>
    intro dst fs q h
    rw [writeEntries_cons, ih _ _ _ (fun z hz => h z (List.mem_cons_of_mem y hz))]
    exact getEntry_setEntry_ne fs y.2 (h y (List.mem_cons_self y l))

theorem getEntry_writeEntries_of_mem : ∀ (l : List (BPath × Entry)) (dst : BPath) (fs : FS)
    (r : BPath) (e : Entry), (l.map Prod.fst).Nodup → (r, e) ∈ l →
    getEntry (writeEntries dst l fs) (dst ++ r) = some e := by
  intro l
  induction l with
  | nil => intro dst fs r e _ h; cases h
  | cons y l ih =>
    intro dst fs r e hnd hmem
    rw [List.map_cons, List.nodup_cons] at hnd
    rcases List.mem_cons.1 hmem with heq | hmem'
    · cases heq
      rw [writeEntries_cons]
      have hne : ∀ z ∈ l, ¬ dst ++ r = dst ++ z.1 := by
        intro z hz hc
        have hm : z.1 ∈ l.map Prod.fst := List.mem_map_of_mem Prod.fst hz
        rw [← List.append_cancel_left hc] at hm
        exact hnd.1 hm
      rw [getEntry_writeEntries_of_ne l dst _ _ hne]
      exact getEntry_setEntry_self fs (dst ++ r) e
    · rw [writeEntries_cons]
      exact ih dst _ r e hnd.2 hmem'

/-! ### walkFiles lemmas -/

theorem walkEntry_eq_none_of_strip_none {p : BPath} {x : BPath × Entry}
    (h : stripUnder p x.1 = none) : walkEntry p x = none := by
  rw [walkEntry, h]

theorem walkEntry_dir (p q : BPath) : walkEntry p (q, Entry.dir) = none := by
  rw [walkEntry]
  cases stripUnder p q <;> rfl

theorem walkEntry_eq_some_iff {p : BPath} {x : BPath × Entry} {r : BPath} {e : Entry} :
    walkEntry p x = some (r, e) ↔
      stripUnder p x.1 = some r ∧ x.2 = e ∧ ¬ e = Entry.dir := by
  rw [walkEntry]
  cases hs : stripUnder p x.1 with
  | none =>
    cases hx : x.2 <;>
      simp
  | some r' =>
    cases hx : x.2 with
    | file d =>
      simp only [Option.some.injEq, Prod.mk.injEq]
      constructor
      · rintro ⟨rfl, rfl⟩
        exact ⟨rfl, rfl, by intro h; cases h⟩
      · rintro ⟨hr, rfl, -⟩
        cases hr
        exact ⟨rfl, rfl⟩
    | dir =>
      constructor
      · intro h; cases h
      · rintro ⟨-, rfl, hne⟩
        exact absurd rfl hne
    | zipFile es =>
      simp only [Option.some.injEq, Prod.mk.injEq]
      constructor
      · rintro ⟨rfl, rfl⟩
        exact ⟨rfl, rfl, by intro h; cases h⟩
      · rintro ⟨hr, rfl, -⟩
        cases hr
        exact ⟨rfl, rfl⟩

theorem walkFiles_cons_none {p : BPath} {x : BPath × Entry} (h : walkEntry p x = none)
    (fs : FS) : walkFiles (x :: fs) p = walkFiles fs p := by
  rw [walkFiles, List.filterMap_cons, h, walkFiles]

theorem walkFiles_cons_some {p : BPath} {x y : BPath × Entry} (h : walkEntry p x = some y)
    (fs : FS) : walkFiles (x :: fs) p = y :: walkFiles fs p := by
  rw [walkFiles, List.filterMap_cons, h, walkFiles]

theorem walkFiles_setEntry_of_strip_none : ∀ (fs : FS) {p q : BPath} (e : Entry),
    stripUnder p q = none → walkFiles (setEntry fs q e) p = walkFiles fs p := by
  intro fs
  induction fs with
  | nil =>
    intro p q e h
    show walkFiles [(q, e)] p = walkFiles [] p
    rw [walkFiles_cons_none (walkEntry_eq_none_of_strip_none h)]
  | cons x rest ih =>
    intro p q e h
    rw [setEntry]
    by_cases hx : x.1 = q
    · have hx2 : stripUnder p x.1 = none := by rw [hx]; exact h
      rw [if_pos hx,
        walkFiles_cons_none (walkEntry_eq_none_of_strip_none h),
        walkFiles_cons_none (walkEntry_eq_none_of_strip_none hx2)]
    · rw [if_neg hx]
      cases hw : walkEntry p x with
      | none => rw [walkFiles_cons_none hw, walkFiles_cons_none hw, ih e h]
      | some y => rw [walkFiles_cons_some hw, walkFiles_cons_some hw, ih e h]

theorem walkFiles_append (l1 l2 : FS) (p : BPath) :
    walkFiles (l1 ++ l2) p = walkFiles l1 p ++ walkFiles l2 p := by
  rw [walkFiles, walkFiles, walkFiles, List.filterMap_append]

theorem walkFiles_mkdirStep (acc : FS) (q p : BPath) :
    walkFiles (mkdirStep acc q) p = walkFiles acc p := by
  rw [mkdirStep]
  by_cases he : pathExists acc q
  · rw [if_pos he]
  · rw [if_neg he, walkFiles_append]
    have h1 : walkFiles ([(q, Entry.dir)] : FS) p = [] := by
      rw [walkFiles_cons_none (walkEntry_dir p q)]
      rfl
    rw [h1, List.append_nil]

theorem walkFiles_foldl_mkdirStep : ∀ (l : List BPath) (acc : FS) (p : BPath),
    walkFiles (l.foldl mkdirStep acc) p = walkFiles acc p := by
  intro l
  induction l with
  | nil => intro acc p; rfl
  | cons q l ih =>
    intro acc p
    rw [List.foldl_cons, ih, walkFiles_mkdirStep]

theorem walkFiles_makedirs (fs : FS) (d p : BPath) :
    walkFiles (makedirs fs d) p = walkFiles fs p := by
  rw [makedirs, walkFiles_foldl_mkdirStep]

theorem walkEntry_eq_none_of_under {src d : BPath} (hsd : pathUnder src d = false)
    (hds : pathUnder d src = false) {x : BPath × Entry}
    (hx : pathUnder d x.1 = true) : walkEntry src x = none := by
  apply walkEntry_eq_none_of_strip_none
  cases hs : stripUnder src x.1 with
  | none => rfl
  | some r =>
    obtain ⟨hq, -⟩ := (stripUnder_eq_some_iff src x.1 r).1 hs
    have hu : pathUnder src x.1 = true := by rw [hq]; exact pathUnder_append src r
    rcases pathUnder_comparable x.1 src d hu hx with h | h
    · rw [h] at hsd; cases hsd
    · rw [h] at hds; cases hds

theorem walkFiles_rmtree_of_disjoint {src d : BPath} (hsd : pathUnder src d = false)
    (hds : pathUnder d src = false) (fs : FS) :
    walkFiles (rmtree fs d) src = walkFiles fs src := by
  induction fs with
  | nil => rfl
  | cons x rest ih =>
    rw [rmtree] at ih
    rw [rmtree, List.filter_cons]
    by_cases hk : pathUnder d x.1 = true
    · rw [if_neg (by simp [hk])]
      rw [ih, walkFiles_cons_none (walkEntry_eq_none_of_under hsd hds hk)]
    · rw [if_pos (by simp [Bool.not_eq_true] at hk ⊢; exact hk)]
      cases hw : walkEntry src x with
      | none => rw [walkFiles_cons_none hw, walkFiles_cons_none hw, ih]
      | some y => rw [walkFiles_cons_some hw, walkFiles_cons_some hw, ih]

theorem walkFiles_osRemove_of_strip_none {src q : BPath}
    (h : stripUnder src q = none) (fs : FS) :
    walkFiles (osRemove fs q) src = walkFiles fs src := by
  induction fs with
  | nil => rfl
  | cons x rest ih =>
    rw [osRemove] at ih
    rw [osRemove, List.filter_cons]
    by_cases hk : x.1 = q
    · rw [if_neg (by simp [hk])]
      have hxs : stripUnder src x.1 = none := by rw [hk]; exact h
      rw [ih, walkFiles_cons_none (walkEntry_eq_none_of_strip_none hxs)]
    · rw [if_pos (by simp [hk])]
      cases hw : walkEntry src x with
      | none => rw [walkFiles_cons_none hw, walkFiles_cons_none hw, ih]
      | some y => rw [walkFiles_cons_some hw, walkFiles_cons_some hw, ih]

theorem walkFiles_writeEntries_of_strip_none : ∀ (l : List (BPath × Entry))
    (dst : BPath) (fs : FS) (src : BPath),
    (∀ y ∈ l, stripUnder src (dst ++ y.1) = none) →
    walkFiles (writeEntries dst l fs) src = walkFiles fs src := by
  intro l
  induction l with
  | nil => intro dst fs src _; rfl
  | cons y l ih =>
    intro dst fs src h
    rw [writeEntries_cons, ih _ _ _ (fun z hz => h z (List.mem_cons_of_mem y hz)),
      walkFiles_setEntry_of_strip_none fs y.2 (h y (List.mem_cons_self y l))]

/-! ### Membership and key-uniqueness lemmas -/

theorem subtreeEntries_cons_none {src : BPath} {x : BPath × Entry}
    (h : stripUnder src x.1 = none) (fs : FS) :
    subtreeEntries (x :: fs) src = subtreeEntries fs src := by
  simp only [subtreeEntries, List.filterMap_cons, h, Option.map_none']

theorem subtreeEntries_cons_some {src r : BPath} {x : BPath × Entry}
    (h : stripUnder src x.1 = some r) (fs : FS) :
    subtreeEntries (x :: fs) src = (r, x.2) :: subtreeEntries fs src := by
  simp only [subtreeEntries, List.filterMap_cons, h, Option.map_some']

theorem mem_subtreeEntries_iff (fs : FS) (src r : BPath) (e : Entry)
    (hnd : (fs.map Prod.fst).Nodup) :
    (r, e) ∈ subtreeEntries fs src ↔ ¬ r = [] ∧ getEntry fs (src ++ r) = some e := by
  rw [subtreeEntries, List.mem_filterMap]
  constructor
  · rintro ⟨x, hx, hfx⟩
    cases hs : stripUnder src x.1 with
    | none =>
      rw [hs, Option.map_none'] at hfx
      cases hfx
    | some r' =>
      rw [hs, Option.map_some'] at hfx
      injection hfx with h1
      obtain ⟨hq, hr⟩ := (stripUnder_eq_some_iff src x.1 r').1 hs
      have hr2 : r' = r := congrArg Prod.fst h1
      have he2 : x.2 = e := congrArg Prod.snd h1
      subst hr2
      refine ⟨hr, ?_⟩
      rw [← hq, ← he2]
      have hx2 : (x.1, x.2) ∈ fs := by
        cases x
        exact hx
      exact getEntry_eq_some_of_mem hnd hx2
  · rintro ⟨hr, hg⟩
    refine ⟨(src ++ r, e), mem_of_getEntry_eq_some hg, ?_⟩
    show (stripUnder src (src ++ r)).map (fun r' => (r', e)) = some (r, e)
    rw [stripUnder_append hr, Option.map_some']

theorem mem_walkFiles_iff (fs : FS) (src r : BPath) (e : Entry)
    (hnd : (fs.map Prod.fst).Nodup) :
    (r, e) ∈ walkFiles fs src ↔
      ¬ r = [] ∧ getEntry fs (src ++ r) = some e ∧ ¬ e = Entry.dir := by
  rw [walkFiles, List.mem_filterMap]
  constructor
  · rintro ⟨x, hx, hfx⟩
    obtain ⟨hs, hx2, hne⟩ := walkEntry_eq_some_iff.1 hfx
    obtain ⟨hq, hr⟩ := (stripUnder_eq_some_iff src x.1 r).1 hs
    refine ⟨hr, ?_, hne⟩
    rw [← hq, ← hx2]
    have hx3 : (x.1, x.2) ∈ fs := by
      cases x
      exact hx
    exact getEntry_eq_some_of_mem hnd hx3
  · rintro ⟨hr, hg, hne⟩
    refine ⟨(src ++ r, e), mem_of_getEntry_eq_some hg, ?_⟩
    exact walkEntry_eq_some_iff.2 ⟨stripUnder_append hr, rfl, hne⟩

theorem nodupKeys_subtreeEntries : ∀ (fs : FS) (src : BPath),
    (fs.map Prod.fst).Nodup → ((subtreeEntries fs src).map Prod.fst).Nodup := by
  intro fs src
  induction fs with
  | nil => intro _; simp [subtreeEntries]
  | cons x rest ih =>
    intro h
    rw [List.map_cons, List.nodup_cons] at h
    cases hs : stripUnder src x.1 with
    | none =>
      rw [subtreeEntries_cons_none hs]
      exact ih h.2
    | some r =>
      rw [subtreeEntries_cons_some hs, List.map_cons, List.nodup_cons]
      refine ⟨?_, ih h.2⟩
      intro hc
      obtain ⟨z, hmem, hzr⟩ := List.mem_map.1 hc
      rw [subtreeEntries, List.mem_filterMap] at hmem
      obtain ⟨y, hy, hfy⟩ := hmem
      cases hsy : stripUnder src y.1 with
      | none =>
        rw [hsy, Option.map_none'] at hfy
        cases hfy
      | some ry =>
        rw [hsy, Option.map_some'] at hfy
        injection hfy with hfy2
        have hzry : z.1 = ry := by rw [← hfy2]
        have hrr : ry = r := by rw [← hzry, hzr]
        obtain ⟨hy1, -⟩ := (stripUnder_eq_some_iff src y.1 ry).1 hsy
        obtain ⟨hx1, -⟩ := (stripUnder_eq_some_iff src x.1 r).1 hs
        apply h.1
        have hyx : y.1 = x.1 := by rw [hy1, hx1, hrr]
        rw [← hyx]
        exact List.mem_map_of_mem Prod.fst hy

theorem nodupKeys_filter (pB : BPath × Entry → Bool) (fs : FS)
    (h : (fs.map Prod.fst).Nodup) : (((fs.filter pB).map Prod.fst)).Nodup :=
  List.Nodup.sublist ((fs.filter_sublist).map Prod.fst) h

theorem nodupKeys_mkdirStep (acc : FS) (q : BPath)
    (h : (acc.map Prod.fst).Nodup) : ((mkdirStep acc q).map Prod.fst).Nodup := by
  rw [mkdirStep]
  by_cases he : pathExists acc q
  · rw [if_pos he]; exact h
  · rw [if_neg he, List.map_append]
    rw [List.nodup_append]
    refine ⟨h, List.nodup_singleton q, ?_⟩
    intro a ha hb
    have hq : a = q := by
      cases hb with
      | head => rfl
      | tail _ hb2 => cases hb2
    subst hq
    have hnone : getEntry acc a = none := by
      cases hg : getEntry acc a with
      | none => rfl
      | some e =>
        rw [pathExists, hg] at he
        exact absurd rfl he
    exact (getEntry_eq_none_iff acc a).1 hnone ha

theorem nodupKeys_foldl_mkdirStep : ∀ (l : List BPath) (acc : FS),
    (acc.map Prod.fst).Nodup → ((l.foldl mkdirStep acc).map Prod.fst).Nodup := by
  intro l
  induction l with
  | nil => intro acc h; exact h
  | cons q l ih =>
    intro acc h
    rw [List.foldl_cons]
    exact ih _ (nodupKeys_mkdirStep acc q h)

theorem nodupKeys_makedirs (fs : FS) (d : BPath)
    (h : (fs.map Prod.fst).Nodup) : ((makedirs fs d).map Prod.fst).Nodup := by
  rw [makedirs]
  exact nodupKeys_foldl_mkdirStep (pathPrefixes d) fs h

/-! ### Run inversion lemmas -/

theorem catchBackupError_eq (e : Err) : catchBackupError e = (false, 0) := by
  cases e <;> rfl

theorem isdir_or_isfile {fs : FS} {d : BPath} (h : pathExists fs d = true) :
    isdir fs d = true ∨ isfile fs d = true := by
  rw [pathExists] at h
  cases hg : getEntry fs d with
  | none => rw [hg] at h; cases h
  | some e =>
    cases e with
    | file data => right; rw [isfile, hg]
    | dir => left; rw [isdir, hg]
    | zipFile es => right; rw [isfile, hg]

theorem pathUnder_trans {a b c : BPath} (h1 : pathUnder a b = true)
    (h2 : pathUnder b c = true) : pathUnder a c = true := by
  obtain ⟨r, rfl⟩ := (pathUnder_iff a b).1 h1
  obtain ⟨s, rfl⟩ := (pathUnder_iff (a ++ r) c).1 h2
  rw [List.append_assoc]
  exact pathUnder_append a (r ++ s)

theorem pathUnder_append_left_false {d r : BPath} (hr : ¬ r = []) :
    pathUnder (d ++ r) d = false := by
  cases hu : pathUnder (d ++ r) d
  · rfl
  · obtain ⟨s, hs⟩ := (pathUnder_iff (d ++ r) d).1 hu
    have hlen := congrArg List.length hs
    rw [List.length_append, List.length_append] at hlen
    have hr0 : r.length = 0 := by omega
    exact absurd (List.eq_nil_of_length_eq_zero hr0) hr

theorem cleanup_destination_ok {o : Oracle} {fs : FS} {d : BPath} {fs1 : FS}
    (h : cleanup_destination o fs d = (Except.ok (), fs1)) :
    (isdir fs d = true ∧ o.rmtreeErr = none ∧ fs1 = rmtree fs d) ∨
    (isdir fs d = false ∧ isfile fs d = true ∧ o.removeErr = none ∧ fs1 = osRemove fs d) ∨
    (pathExists fs d = false ∧ fs1 = fs) := by
  rw [cleanup_destination] at h
  by_cases he : pathExists fs d
  · rw [if_pos he] at h
    by_cases hdir : isdir fs d
    · rw [if_pos hdir] at h
      cases hr : o.rmtreeErr with
      | some e => rw [hr] at h; cases h
      | none =>
        rw [hr] at h
        injection h with h1 h2
        exact Or.inl ⟨hdir, rfl, h2.symm⟩
    · rw [if_neg hdir] at h
      by_cases hfile : isfile fs d
      · rw [if_pos hfile] at h
        cases hr : o.removeErr with
        | some e => rw [hr] at h; cases h
        | none =>
          rw [hr] at h
          injection h with h1 h2
          refine Or.inr (Or.inl ⟨?_, hfile, rfl, h2.symm⟩)
          cases hd2 : isdir fs d
          · rfl
          · exact absurd hd2 hdir
      · rcases isdir_or_isfile he with hd2 | hf2
        · exact absurd hd2 hdir
        · exact absurd hf2 hfile
  · rw [if_neg he] at h
    injection h with h1 h2
    refine Or.inr (Or.inr ⟨?_, h2.symm⟩)
    cases he2 : pathExists fs d
    · rfl
    · exact absurd he2 he

theorem copy_folder_contents_ok {o : Oracle} {fs : FS} {sp dp : BPath} {b : Bool}
    {fs2 : FS} (h : copy_folder_contents o fs sp dp = (Except.ok b, fs2)) :
    b = true ∧ o.copytreeErr = none ∧
    ((pathExists fs dp = true ∧ fs2 = copytree fs sp dp) ∨
     (pathExists fs dp = false ∧ o.makedirsErr = none ∧
       fs2 = copytree (makedirs fs dp) sp dp)) := by
  rw [copy_folder_contents] at h
  by_cases he : pathExists fs dp
  · rw [if_pos he] at h
    cases hc : o.copytreeErr with
    | some e => rw [hc] at h; cases h
    | none =>
      rw [hc] at h
      injection h with h1 h2
      injection h1 with h1b
      exact ⟨h1b.symm, rfl, Or.inl ⟨he, h2.symm⟩⟩
  · rw [if_neg he] at h
    cases hm : o.makedirsErr with
    | some e => rw [hm] at h; cases h
    | none =>
      rw [hm] at h
      cases hc : o.copytreeErr with
      | some e => rw [hc] at h; cases h
      | none =>
        rw [hc] at h
        injection h with h1 h2
        injection h1 with h1b
        refine ⟨h1b.symm, rfl, Or.inr ⟨?_, rfl, h2.symm⟩⟩
        cases he2 : pathExists fs dp
        · rfl
        · exact absurd he2 he

theorem zip_folder_contents_ok {o : Oracle} {fs : FS} {sp dp : BPath} {b : Bool}
    {fs2 : FS} (h : zip_folder_contents o fs sp dp = (Except.ok b, fs2)) :
    b = true ∧ o.zipWriteErr = none ∧
    ((¬ (dp.dropLast ≠ [] ∧ pathExists fs dp.dropLast = false) ∧
       fs2 = setEntry fs dp (Entry.zipFile (walkFiles fs sp))) ∨
     ((dp.dropLast ≠ [] ∧ pathExists fs dp.dropLast = false) ∧ o.makedirsErr = none ∧
       fs2 = setEntry (makedirs fs dp.dropLast) dp
         (Entry.zipFile (walkFiles (makedirs fs dp.dropLast) sp)))) := by
  rw [zip_folder_contents] at h
  by_cases he : dp.dropLast ≠ [] ∧ pathExists fs dp.dropLast = false
  · rw [if_pos he] at h
    cases hm : o.makedirsErr with
    | some e => rw [hm] at h; cases h
    | none =>
      rw [hm] at h
      cases hz : o.zipWriteErr with
      | some e => rw [hz] at h; cases h
      | none =>
        rw [hz] at h
        injection h with h1 h2
        injection h1 with h1b
        exact ⟨h1b.symm, rfl, Or.inr ⟨he, rfl, h2.symm⟩⟩
  · rw [if_neg he] at h
    cases hz : o.zipWriteErr with
    | some e => rw [hz] at h; cases h
    | none =>
      rw [hz] at h
      injection h with h1 h2
      injection h1 with h1b
      exact ⟨h1b.symm, rfl, Or.inl ⟨he, h2.symm⟩⟩

theorem perform_backup_ok_true {o : Oracle} {now : DateTime} {fs : FS}
    {src bd : BPath} {compress : Bool} {n : Nat} {fs' : FS}
    (h : perform_backup o now fs src bd compress = (Except.ok (true, n), fs')) :
    pathExists fs src = true ∧ isdir fs src = true ∧
    ∃ fs1, cleanup_destination o fs (full_destination_path src bd compress now) =
        (Except.ok (), fs1) ∧
      (if compress then
        zip_folder_contents o fs1 src (full_destination_path src bd compress now)
       else
        copy_folder_contents o fs1 src (full_destination_path src bd compress now)) =
        (Except.ok true, fs') ∧
      n = count_files_in_folder fs' src := by
  rw [perform_backup] at h
  by_cases h1 : pathExists fs src = false
  · rw [if_pos h1] at h
    injection h with ha hb
    injection ha with hab
    cases (Prod.mk.inj hab).1
  · rw [if_neg h1] at h
    by_cases h2 : isdir fs src = false
    · rw [if_pos h2] at h
      injection h with ha hb
      injection ha with hab
      cases (Prod.mk.inj hab).1
    · rw [if_neg h2] at h
      refine ⟨?_, ?_, ?_⟩
      · cases hpe : pathExists fs src
        · exact absurd hpe h1
        · rfl
      · cases hdir : isdir fs src
        · exact absurd hdir h2
        · rfl
      · rcases hcl : cleanup_destination o fs (full_destination_path src bd compress now)
          with ⟨rc, fs1⟩
        rw [hcl] at h
        cases rc with
        | error e =>
          injection h with ha hb
          injection ha with hab
          rw [catchBackupError_eq] at hab
          cases (Prod.mk.inj hab).1
        | ok u =>
          cases u
          dsimp only at h
          rcases hbr : (if compress then
              zip_folder_contents o fs1 src (full_destination_path src bd compress now)
            else
              copy_folder_contents o fs1 src (full_destination_path src bd compress now))
            with ⟨rb, fs2⟩
          rw [hbr] at h
          cases rb with
          | error e =>
            injection h with ha hb
            injection ha with hab
            rw [catchBackupError_eq] at hab
            cases (Prod.mk.inj hab).1
          | ok success =>
            injection h with ha hb
            injection ha with hab
            have hsucc : success = true := (Prod.mk.inj hab).1
            subst hsucc
            subst hb
            refine ⟨fs1, rfl, hbr, ?_⟩
            have hn := (Prod.mk.inj hab).2
            rw [if_pos rfl] at hn
            exact hn.symm

theorem perform_backup_total (o : Oracle) (now : DateTime) (fs : FS)
    (src bd : BPath) (compress : Bool) :
    ∃ r fs', perform_backup o now fs src bd compress = (Except.ok r, fs') := by
  rw [perform_backup]
  by_cases h1 : pathExists fs src = false
  · rw [if_pos h1]
    exact ⟨(false, 0), fs, rfl⟩
  · rw [if_neg h1]
    by_cases h2 : isdir fs src = false
    · rw [if_pos h2]
      exact ⟨(false, 0), fs, rfl⟩
    · rw [if_neg h2]
      rcases hcl : cleanup_destination o fs (full_destination_path src bd compress now)
        with ⟨rc, fs1⟩
      cases rc with
      | error e => exact ⟨catchBackupError e, fs1, rfl⟩
      | ok u =>
        cases u
        dsimp only
        rcases hbr : (if compress then
            zip_folder_contents o fs1 src (full_destination_path src bd compress now)
          else
            copy_folder_contents o fs1 src (full_destination_path src bd compress now))
          with ⟨rb, fs2⟩
        cases rb with
        | error e => exact ⟨catchBackupError e, fs2, rfl⟩
        | ok success =>
          exact ⟨(success, if success then count_files_in_folder fs2 src else 0), fs2, rfl⟩

theorem perform_backup_ok_false {o : Oracle} {now : DateTime} {fs : FS}
    {src bd : BPath} {compress : Bool} {n : Nat} {fs' : FS}
    (h : perform_backup o now fs src bd compress = (Except.ok (false, n), fs')) :
    n = 0 := by
  rw [perform_backup] at h
  by_cases h1 : pathExists fs src = false
  · rw [if_pos h1] at h
    injection h with ha hb
    injection ha with hab
    exact ((Prod.mk.inj hab).2).symm
  · rw [if_neg h1] at h
    by_cases h2 : isdir fs src = false
    · rw [if_pos h2] at h
      injection h with ha hb
      injection ha with hab
      exact ((Prod.mk.inj hab).2).symm
    · rw [if_neg h2] at h
      rcases hcl : cleanup_destination o fs (full_destination_path src bd compress now)
        with ⟨rc, fs1⟩
      rw [hcl] at h
      cases rc with
      | error e =>
        injection h with ha hb
        injection ha with hab
        rw [catchBackupError_eq] at hab
        exact ((Prod.mk.inj hab).2).symm
      | ok u =>
        cases u
        dsimp only at h
        rcases hbr : (if compress then
            zip_folder_contents o fs1 src (full_destination_path src bd compress now)
          else
            copy_folder_contents o fs1 src (full_destination_path src bd compress now))
          with ⟨rb, fs2⟩
        rw [hbr] at h
        cases rb with
        | error e =>
          injection h with ha hb
          injection ha with hab
          rw [catchBackupError_eq] at hab
          exact ((Prod.mk.inj hab).2).symm
        | ok success =>
          injection h with ha hb
          injection ha with hab
          have hsucc : success = false := (Prod.mk.inj hab).1
          subst hsucc
          have hn := (Prod.mk.inj hab).2
          rw [if_neg (by intro hc; cases hc)] at hn
          exact hn.symm

/-! ### State facts after the cleanup step -/

theorem isdir_eq_true_iff (fs : FS) (d : BPath) :
    isdir fs d = true ↔ getEntry fs d = some Entry.dir := by
  rw [isdir]
  cases hg : getEntry fs d with
  | none =>
    constructor
    · intro h; cases h
    · intro h; cases h
  | some e =>
    cases e with
    | file data =>
      constructor
      · intro h; cases h
      · intro h; cases h
    | dir => simp
    | zipFile es =>
      constructor
      · intro h; cases h
      · intro h; cases h

theorem isdir_imp_pathExists {fs : FS} {d : BPath} (h : isdir fs d = true) :
    pathExists fs d = true := by
  rw [pathExists, (isdir_eq_true_iff fs d).1 h]
  rfl

theorem isfile_imp_not_isdir {fs : FS} {d : BPath} (h : isfile fs d = true) :
    isdir fs d = false := by
  rw [isfile] at h
  rw [isdir]
  cases hg : getEntry fs d with
  | none => rfl
  | some e =>
    rw [hg] at h
    cases e with
    | file data => rfl
    | dir => cases h
    | zipFile es => rfl

theorem wf_under_isdir {fs : FS} {d r : BPath} {e : Entry} (hwf : FS.wf fs)
    (hg : getEntry fs (d ++ r) = some e) (hd : ¬ d = []) (hr : ¬ r = []) :
    isdir fs d = true := by
  have hmem : (d ++ r, e) ∈ fs := mem_of_getEntry_eq_some hg
  have hdp : d ∈ pathPrefixes (d ++ r) :=
    (mem_pathPrefixes_iff (d ++ r) d).2 ⟨hd, pathUnder_append d r⟩
  have hne : ¬ d = (d ++ r, e).1 := by
    cases r with
    | nil => exact absurd rfl hr
    | cons a r' => exact fun hc => append_cons_ne_self d a r' hc.symm
  exact hwf.2 (d ++ r, e) hmem d hdp hne

theorem pathUnder_append_right_false {src d : BPath} (r : BPath)
    (hsd : pathUnder src d = false) (hds : pathUnder d src = false) :
    pathUnder d (src ++ r) = false := by
  cases hu : pathUnder d (src ++ r)
  · rfl
  · rcases pathUnder_comparable (src ++ r) d src hu (pathUnder_append src r) with h | h
    · rw [h] at hds; cases hds
    · rw [h] at hsd; cases hsd

theorem pathUnder_to_append_false {src d : BPath} (r : BPath)
    (hsd : pathUnder src d = false) : pathUnder (src ++ r) d = false := by
  cases hu : pathUnder (src ++ r) d
  · rfl
  · rw [pathUnder_trans (pathUnder_append src r) hu] at hsd
    cases hsd

theorem cleanup_state_facts {o : Oracle} {fs : FS} {d : BPath} {fs1 : FS}
    (hwf : FS.wf fs) (hdne : ¬ d = [])
    (h : cleanup_destination o fs d = (Except.ok (), fs1)) :
    (∀ q, pathUnder d q = false → getEntry fs1 q = getEntry fs q) ∧
    (∀ r, ¬ r = [] → getEntry fs1 (d ++ r) = none) ∧
    pathExists fs1 d = false ∧
    (fs1.map Prod.fst).Nodup ∧
    (∀ src, pathUnder src d = false → pathUnder d src = false →
      walkFiles fs1 src = walkFiles fs src) := by
  have happne : ∀ (r : BPath), ¬ r = [] → ¬ d ++ r = d := by
    intro r hr
    cases r with
    | nil => exact absurd rfl hr
    | cons a r' => exact append_cons_ne_self d a r'
  rcases cleanup_destination_ok h with ⟨hdir, -, rfl⟩ | ⟨hdir, hfile, -, rfl⟩ | ⟨hex, rfl⟩
  · refine ⟨?_, ?_, ?_, ?_, ?_⟩
    · intro q hq
      exact getEntry_rmtree_of_not_under fs hq
    · intro r hr
      exact getEntry_rmtree_of_under fs (pathUnder_append d r)
    · rw [pathExists, getEntry_rmtree_of_under fs (pathUnder_refl d)]
      rfl
    · rw [rmtree]
      exact nodupKeys_filter _ fs hwf.1
    · intro src hsd hds
      exact walkFiles_rmtree_of_disjoint hsd hds fs
  · refine ⟨?_, ?_, ?_, ?_, ?_⟩
    · intro q hq
      have hqd : ¬ q = d := by
        intro hc
        rw [hc, pathUnder_refl] at hq
        cases hq
      exact getEntry_osRemove_ne fs hqd
    · intro r hr
      rw [getEntry_osRemove_ne fs (happne r hr)]
      cases hg : getEntry fs (d ++ r) with
      | none => rfl
      | some e =>
        rw [wf_under_isdir hwf hg hdne hr] at hdir
        cases hdir
    · rw [pathExists, getEntry_osRemove_self]
      rfl
    · rw [osRemove]
      exact nodupKeys_filter _ fs hwf.1
    · intro src hsd hds
      exact walkFiles_osRemove_of_strip_none (stripUnder_eq_none_of_not_under hsd) fs
  · refine ⟨fun q _ => rfl, ?_, hex, hwf.1, fun src _ _ => rfl⟩
    intro r hr
    cases hg : getEntry fs1 (d ++ r) with
    | none => rfl
    | some e =>
      have hd2 := isdir_imp_pathExists (wf_under_isdir hwf hg hdne hr)
      rw [hd2] at hex
      cases hex

/-! ### Master specifications for successful runs -/

theorem full_destination_path_ne_nil (src bd : BPath) (c : Bool) (now : DateTime) :
    ¬ full_destination_path src bd c now = [] := by
  rw [full_destination_path]
  simp

theorem copy_segment_spec {o : Oracle} {fs fs1 fs' : FS} {src d : BPath}
    (hwf : FS.wf fs) (hdne : ¬ d = [])
    (hsd : pathUnder src d = false) (hds : pathUnder d src = false)
    (hcl : cleanup_destination o fs d = (Except.ok (), fs1))
    (hbr : copy_folder_contents o fs1 src d = (Except.ok true, fs')) :
    getEntry fs' d = some Entry.dir ∧
    (∀ r, ¬ r = [] → getEntry fs' (d ++ r) = getEntry fs (src ++ r)) ∧
    walkFiles fs' src = walkFiles fs src := by
  have happne : ∀ (r : BPath), ¬ r = [] → ¬ d ++ r = d := by
    intro r hr
    cases r with
    | nil => exact absurd rfl hr
    | cons a r' => exact append_cons_ne_self d a r'
  obtain ⟨hT1, hT2, hEx, hNd, hWk⟩ := cleanup_state_facts hwf hdne hcl
  have hwalk1 : walkFiles fs1 src = walkFiles fs src := hWk src hsd hds
  obtain ⟨-, -, hcase⟩ := copy_folder_contents_ok hbr
  rcases hcase with ⟨hpe, -⟩ | ⟨-, -, rfl⟩
  · rw [hEx] at hpe
    cases hpe
  · have hmd_src : ∀ r : BPath,
        getEntry (makedirs fs1 d) (src ++ r) = getEntry fs (src ++ r) := by
      intro r
      rw [getEntry_makedirs_of_not_under fs1 (Or.inr (pathUnder_to_append_false r hsd))]
      exact hT1 (src ++ r) (pathUnder_append_right_false r hsd hds)
    have hmd_d : ∀ r : BPath, ¬ r = [] → getEntry (makedirs fs1 d) (d ++ r) = none := by
      intro r hr
      rw [getEntry_makedirs_of_not_under fs1 (Or.inr (pathUnder_append_left_false hr))]
      exact hT2 r hr
    have hmd_nodup : ((makedirs fs1 d).map Prod.fst).Nodup := nodupKeys_makedirs fs1 d hNd
    have hmd_walk : walkFiles (makedirs fs1 d) src = walkFiles fs src := by
      rw [walkFiles_makedirs, hwalk1]
    have hkeys_ne_d : ∀ y ∈ subtreeEntries (makedirs fs1 d) src, ¬ d = d ++ y.1 := by
      intro y hy hc
      have hy2 : (y.1, y.2) ∈ subtreeEntries (makedirs fs1 d) src := by
        cases y
        exact hy
      have hne := ((mem_subtreeEntries_iff _ src y.1 y.2 hmd_nodup).1 hy2).1
      have h0 : d ++ ([] : BPath) = d ++ y.1 := by
        rw [List.append_nil]
        exact hc
      exact hne (List.append_cancel_left h0).symm
    refine ⟨?_, ?_, ?_⟩
    · rw [copytree, getEntry_writeEntries_of_ne _ _ _ _ hkeys_ne_d]
      exact getEntry_setEntry_self _ d Entry.dir
    · intro r hr
      cases hg : getEntry fs (src ++ r) with
      | some e =>
        have hmem : (r, e) ∈ subtreeEntries (makedirs fs1 d) src :=
          (mem_subtreeEntries_iff _ src r e hmd_nodup).2
            ⟨hr, by rw [hmd_src r]; exact hg⟩
        rw [copytree, getEntry_writeEntries_of_mem _ d _ r e
          (nodupKeys_subtreeEntries _ src hmd_nodup) hmem]
      | none =>
        have hnomem : ∀ y ∈ subtreeEntries (makedirs fs1 d) src, ¬ d ++ r = d ++ y.1 := by
          intro y hy hc
          have hry : r = y.1 := List.append_cancel_left hc
          have hy2 : (y.1, y.2) ∈ subtreeEntries (makedirs fs1 d) src := by
            cases y
            exact hy
          have hgy := ((mem_subtreeEntries_iff _ src y.1 y.2 hmd_nodup).1 hy2).2
          rw [← hry, hmd_src r, hg] at hgy
          cases hgy
        rw [copytree, getEntry_writeEntries_of_ne _ _ _ _ hnomem,
          getEntry_setEntry_ne _ Entry.dir (happne r hr), hmd_d r hr]
    · have hstrip : ∀ y ∈ subtreeEntries (makedirs fs1 d) src,
          stripUnder src (d ++ y.1) = none := by
        intro y hy
        exact stripUnder_eq_none_of_not_under (pathUnder_append_right_false y.1 hds hsd)
      rw [copytree, walkFiles_writeEntries_of_strip_none _ d _ src hstrip,
        walkFiles_setEntry_of_strip_none _ Entry.dir (stripUnder_eq_none_of_not_under hsd),
        hmd_walk]

theorem zip_segment_spec {o : Oracle} {fs fs1 fs' : FS} {src d : BPath}
    (hwf : FS.wf fs) (hdne : ¬ d = [])
    (hsd : pathUnder src d = false) (hds : pathUnder d src = false)
    (hcl : cleanup_destination o fs d = (Except.ok (), fs1))
    (hbr : zip_folder_contents o fs1 src d = (Except.ok true, fs')) :
    getEntry fs' d = some (Entry.zipFile (walkFiles fs src)) ∧
    walkFiles fs' src = walkFiles fs src := by
  obtain ⟨hT1, hT2, hEx, hNd, hWk⟩ := cleanup_state_facts hwf hdne hcl
  have hwalk1 : walkFiles fs1 src = walkFiles fs src := hWk src hsd hds
  obtain ⟨-, -, hcase⟩ := zip_folder_contents_ok hbr
  rcases hcase with ⟨-, rfl⟩ | ⟨-, -, rfl⟩
  · constructor
    · rw [getEntry_setEntry_self, hwalk1]
    · rw [walkFiles_setEntry_of_strip_none fs1 _ (stripUnder_eq_none_of_not_under hsd),
        hwalk1]
  · have hmw : walkFiles (makedirs fs1 d.dropLast) src = walkFiles fs src := by
      rw [walkFiles_makedirs, hwalk1]
    constructor
    · rw [getEntry_setEntry_self, hmw]
    · rw [walkFiles_setEntry_of_strip_none _ _ (stripUnder_eq_none_of_not_under hsd), hmw]

theorem copy_run_spec {o : Oracle} {now : DateTime} {fs : FS} {src bd : BPath}
    {n : Nat} {fs' : FS} (hwf : FS.wf fs)
    (hsd : pathUnder src (full_destination_path src bd false now) = false)
    (hds : pathUnder (full_destination_path src bd false now) src = false)
    (h : perform_backup o now fs src bd false = (Except.ok (true, n), fs')) :
    getEntry fs' (full_destination_path src bd false now) = some Entry.dir ∧
    (∀ r, ¬ r = [] →
      getEntry fs' (full_destination_path src bd false now ++ r) = getEntry fs (src ++ r)) ∧
    walkFiles fs' src = walkFiles fs src ∧
    n = count_files_in_folder fs src := by
  obtain ⟨-, -, fs1, hcl, hbr, hn⟩ := perform_backup_ok_true h
  rw [if_neg (by intro hc; cases hc)] at hbr
  obtain ⟨h1, h2, h3⟩ := copy_segment_spec hwf
    (full_destination_path_ne_nil src bd false now) hsd hds hcl hbr
  refine ⟨h1, h2, h3, ?_⟩
  rw [hn, count_files_in_folder, h3, count_files_in_folder]

theorem zip_run_spec {o : Oracle} {now : DateTime} {fs : FS} {src bd : BPath}
    {n : Nat} {fs' : FS} (hwf : FS.wf fs)
    (hsd : pathUnder src (full_destination_path src bd true now) = false)
    (hds : pathUnder (full_destination_path src bd true now) src = false)
    (h : perform_backup o now fs src bd true = (Except.ok (true, n), fs')) :
    getEntry fs' (full_destination_path src bd true now) =
      some (Entry.zipFile (walkFiles fs src)) ∧
    walkFiles fs' src = walkFiles fs src ∧
    n = count_files_in_folder fs src := by
  obtain ⟨-, -, fs1, hcl, hbr, hn⟩ := perform_backup_ok_true h
  rw [if_pos rfl] at hbr
  obtain ⟨h1, h2⟩ := zip_segment_spec hwf
    (full_destination_path_ne_nil src bd true now) hsd hds hcl hbr
  refine ⟨h1, h2, ?_⟩
  rw [hn, count_files_in_folder, h2, count_files_in_folder]

instance (fs : FS) : Decidable (FS.wf fs) :=
  decidable_of_iff
    ((fs.map Prod.fst).Nodup ∧
      ∀ x ∈ fs, ∀ p ∈ pathPrefixes x.1, p ≠ x.1 → isdir fs p = true)
    Iff.rfl

theorem subtree_fst_ne_nil {fs : FS} {src : BPath} {y : BPath × Entry}
    (hy : y ∈ subtreeEntries fs src) : ¬ y.1 = [] := by
  rw [subtreeEntries, List.mem_filterMap] at hy
  obtain ⟨x, -, hfx⟩ := hy
  cases hs : stripUnder src x.1 with
  | none =>
    rw [hs, Option.map_none'] at hfx
    cases hfx
  | some r =>
    rw [hs, Option.map_some'] at hfx
    have hr := ((stripUnder_eq_some_iff src x.1 r).1 hs).2
    injection hfx with hfx2
    rw [← hfx2]
    exact hr

theorem getEntry_copytree_self (fs : FS) (src d : BPath) :
    getEntry (copytree fs src d) d = some Entry.dir := by
  rw [copytree]
  have hne : ∀ y ∈ subtreeEntries fs src, ¬ d = d ++ y.1 := by
    intro y hy hc
    have h0 : d ++ ([] : BPath) = d ++ y.1 := by
      rw [List.append_nil]
      exact hc
    exact subtree_fst_ne_nil hy (List.append_cancel_left h0).symm
  rw [getEntry_writeEntries_of_ne _ _ _ _ hne]
  exact getEntry_setEntry_self fs d Entry.dir

theorem run_artifact_at_dest {o : Oracle} {now : DateTime} {fs : FS}
    {src bd : BPath} {compress : Bool} {n : Nat} {fs' : FS}
    (h : perform_backup o now fs src bd compress = (Except.ok (true, n), fs')) :
    pathExists fs' (full_destination_path src bd compress now) = true := by
  obtain ⟨-, -, fs1, hcl, hbr, -⟩ := perform_backup_ok_true h
  cases compress with
  | false =>
    rw [if_neg (by intro hc; cases hc)] at hbr
    obtain ⟨-, -, hcase⟩ := copy_folder_contents_ok hbr
    rcases hcase with ⟨-, rfl⟩ | ⟨-, -, rfl⟩ <;>
      rw [pathExists, getEntry_copytree_self] <;> rfl
  | true =>
    rw [if_pos rfl] at hbr
    obtain ⟨-, -, hcase⟩ := zip_folder_contents_ok hbr
    rcases hcase with ⟨-, rfl⟩ | ⟨-, -, rfl⟩ <;>
      rw [pathExists, getEntry_setEntry_self] <;> rfl

/-! ### Configuration persistence (src/main.py) -/

/-- A JSON value as used by the configuration record. -/
inductive JVal where
  | jstr (s : String)
  | jbool (b : Bool)
  | jnat (n : Nat)
deriving DecidableEq

/-- The flat configuration record: a JSON object as an ordered key-value list
(Python dicts preserve insertion order, as does `json.dump`). -/
abbrev Config := List (String × JVal)

/-- The default record written by `BackupApp._create_default_config`. -/
def default_config : Config :=
  [("source_folder", JVal.jstr ""), ("destination_folder", JVal.jstr ""),
   ("compress_backup", JVal.jbool false), ("backup_interval_days", JVal.jnat 7)]

/-- The `config.json` file as seen by `json.load`: absent, present but not
valid JSON, or a parsed JSON object. -/
inductive ConfigFile where
  | absent
  | corrupted (raw : String)
  | storedJson (c : Config)

/-- `BackupApp._save_config`: writes the record to `config.json`. -/
def save_config (c : Config) : ConfigFile := ConfigFile.storedJson c

/-- `BackupApp._create_default_config`: saves the defaults, then returns them. -/
def create_default_config : Config × ConfigFile :=
  (default_config, save_config default_config)

/-- `BackupApp._load_config`: a parsed JSON object is returned verbatim; a
missing file or a `json.JSONDecodeError` yields `_create_default_config`. -/
def load_config : ConfigFile → Config × ConfigFile
  | ConfigFile.absent => create_default_config
  | ConfigFile.corrupted _ => create_default_config
  | ConfigFile.storedJson c => (c, ConfigFile.storedJson c)

/-- Python dict assignment `cfg[k] = v`: replace the binding in place, or
append a new one when the key is absent. -/
def setKey : Config → String → JVal → Config
  | [], k, v => [(k, v)]
  | x :: rest, k, v => if x.1 = k then (k, v) :: rest else x :: setKey rest k v

/-- Python dict lookup `cfg[k]`. -/
def lookupKey : Config → String → Option JVal
  | [], _ => none
  | x :: rest, k => if x.1 = k then some x.2 else lookupKey rest k

theorem lookupKey_cons (k0 : String) (v0 : JVal) (rest : Config) (k : String) :
    lookupKey ((k0, v0) :: rest) k = if k0 = k then some v0 else lookupKey rest k := rfl

/-- `BackupApp._save_preferences_from_gui` (lines 62-67): write the three GUI
fields into the loaded record and save it. -/
def save_preferences_from_gui (c : Config) (sourceVal destVal : String)
    (compressVal : Bool) : Config × ConfigFile :=
  let c1 := setKey c "source_folder" (JVal.jstr sourceVal)
  let c2 := setKey c1 "destination_folder" (JVal.jstr destVal)
  let c3 := setKey c2 "compress_backup" (JVal.jbool compressVal)
  (c3, save_config c3)

/-- The configurations the application itself ever persists: the default
record, or the result of saving GUI preferences over a persisted record. -/
inductive AppPersisted : Config → Prop where
  | defaultConfig : AppPersisted default_config
  | savedFromGui (c : Config) (s d : String) (b : Bool) :
      AppPersisted c → AppPersisted (save_preferences_from_gui c s d b).1

/-- The key list of the persisted configuration object. -/
def config_keys : List String :=
  ["source_folder", "destination_folder", "compress_backup", "backup_interval_days"]

theorem setKey_map_fst_of_mem : ∀ (c : Config) (k : String) (v : JVal),
    k ∈ c.map Prod.fst → (setKey c k v).map Prod.fst = c.map Prod.fst := by
  intro c
  induction c with
  | nil => intro k v h; cases h
  | cons x rest ih =>
    intro k v h
    rw [setKey]
    by_cases hx : x.1 = k
    · rw [if_pos hx, List.map_cons, List.map_cons, hx]
    · rw [if_neg hx, List.map_cons, List.map_cons, ih k v ?hm]
      case hm =>
        rcases List.mem_cons.1 (by rw [List.map_cons] at h; exact h) with hk | hk
        · exact absurd hk.symm hx
        · exact hk

theorem lookupKey_setKey_self : ∀ (c : Config) (k : String) (v : JVal),
    lookupKey (setKey c k v) k = some v := by
  intro c
  induction c with
  | nil => intro k v; rw [setKey, lookupKey, if_pos rfl]
  | cons x rest ih =>
    intro k v
    rw [setKey]
    by_cases hx : x.1 = k
    · rw [if_pos hx, lookupKey, if_pos rfl]
    · rw [if_neg hx, lookupKey, if_neg hx]
      exact ih k v

theorem lookupKey_setKey_ne : ∀ (c : Config) {k k' : String} (v : JVal), ¬ k' = k →
    lookupKey (setKey c k v) k' = lookupKey c k' := by
  intro c
  induction c with
  | nil =>
    intro k k' v hk
    rw [setKey, lookupKey_cons, if_neg (fun h : k = k' => hk h.symm)]
  | cons x rest ih =>
    intro k k' v hk
    rw [setKey]
    by_cases hx : x.1 = k
    · rw [if_pos hx, lookupKey_cons, lookupKey,
        if_neg (fun h : k = k' => hk h.symm),
        if_neg (fun h : x.1 = k' => hk (hx.symm.trans h).symm)]
    · rw [if_neg hx, lookupKey, lookupKey]
      by_cases hxk : x.1 = k'
      · rw [if_pos hxk, if_pos hxk]
      · rw [if_neg hxk, if_neg hxk]
        exact ih v hk

theorem save_preferences_keys (c : Config) (s d : String) (b : Bool)
    (h : c.map Prod.fst = config_keys) :
    (save_preferences_from_gui c s d b).1.map Prod.fst = config_keys := by
  rw [save_preferences_from_gui]
  have h1 := setKey_map_fst_of_mem c "source_folder" (JVal.jstr s)
    (by rw [h]; exact List.mem_cons_self _ _)
  rw [h] at h1
  have h2 := setKey_map_fst_of_mem (setKey c "source_folder" (JVal.jstr s))
    "destination_folder" (JVal.jstr d) (by rw [h1]; rw [config_keys]; simp)
  rw [h1] at h2
  have h3 := setKey_map_fst_of_mem
    (setKey (setKey c "source_folder" (JVal.jstr s)) "destination_folder" (JVal.jstr d))
    "compress_backup" (JVal.jbool b) (by rw [h2]; rw [config_keys]; simp)
  rw [h2] at h3
  exact h3

/-! ### Concrete examples used as witnesses -/

/-- A fixed timestamp for concrete runs: 2024-01-02 03:04:05. -/
def exT0 : DateTime := ⟨2024, 1, 2, 3, 4, 5⟩

/-- A source tree `s/` containing one file `s/a`. -/
def exSrcFS : FS := [(["s"], Entry.dir), (["s", "a"], Entry.file [1])]

/-- The artifact path that a non-compressed run at `exT0` computes. -/
def exDest : BPath := ["d", "s_2024-01-02_03-04-05_v1.0.0"]

/-- The artifact path that a compressed run at `exT0` computes. -/
def exDestZip : BPath := ["d", "s_2024-01-02_03-04-05_v1.0.0.zip"]

/-- A source tree whose only content is an empty subdirectory, with the
destination root already present. -/
def exEmptyDirFS : FS :=
  [(["s"], Entry.dir), (["s", "empty"], Entry.dir), (["d"], Entry.dir)]

/-- A state holding a pre-existing backup artifact (with a stale file) at the
destination path the next run at `exT0` computes. -/
def exStaleFS : FS :=
  [(["s"], Entry.dir), (["s", "a"], Entry.file [1]), (["d"], Entry.dir),
   (exDest, Entry.dir), (exDest ++ ["stale"], Entry.file [9])]

/-- A state with only an unrelated directory (the backup source is missing). -/
def exOnlyDirFS : FS := [(["z"], Entry.dir)]

/-- An oracle under which `shutil.copytree` raises `PermissionError`. -/
def exPermOracle : Oracle := ⟨none, none, none, some Err.permissionError, none⟩

/-- Final state of the non-compressed run from `exSrcFS` (also of the run from
`exStaleFS`, whose old artifact is overwritten). -/
def exCopyResultFS : FS :=
  [(["s"], Entry.dir), (["s", "a"], Entry.file [1]), (["d"], Entry.dir),
   (exDest, Entry.dir), (exDest ++ ["a"], Entry.file [1])]

/-- Final state of the compressed run from `exSrcFS`. -/
def exZipResultFS : FS :=
  [(["s"], Entry.dir), (["s", "a"], Entry.file [1]), (["d"], Entry.dir),
   (exDestZip, Entry.zipFile [(["a"], Entry.file [1])])]

/-- Final state of the compressed run from `exEmptyDirFS`: the zip is empty. -/
def exEmptyZipResultFS : FS :=
  [(["s"], Entry.dir), (["s", "empty"], Entry.dir), (["d"], Entry.dir),
   (exDestZip, Entry.zipFile [])]

/-- Final state of the failing run from `exStaleFS` under `exPermOracle`: the
old artifact is gone and only an empty destination directory remains. -/
def exPermResultFS : FS :=
  [(["s"], Entry.dir), (["s", "a"], Entry.file [1]), (["d"], Entry.dir),
   (exDest, Entry.dir)]

theorem exCopyRun :
    perform_backup Oracle.allOk exT0 exSrcFS ["s"] ["d"] false =
      (Except.ok (true, 1), exCopyResultFS) := rfl

theorem exZipRun :
    perform_backup Oracle.allOk exT0 exSrcFS ["s"] ["d"] true =
      (Except.ok (true, 1), exZipResultFS) := rfl

theorem exEmptyZipRun :
    perform_backup Oracle.allOk exT0 exEmptyDirFS ["s"] ["d"] true =
      (Except.ok (true, 0), exEmptyZipResultFS) := rfl

theorem exStaleRun :
    perform_backup Oracle.allOk exT0 exStaleFS ["s"] ["d"] false =
      (Except.ok (true, 1), exCopyResultFS) := rfl

theorem exPermRun :
    perform_backup exPermOracle exT0 exStaleFS ["s"] ["d"] false =
      (Except.ok (false, 0), exPermResultFS) := rfl

/-! ### The claims -/

/-- C1: for every call to `perform_backup` — whatever the arguments, the prior
file-system state and the exceptions the file-system operations raise (any
error injection by the oracle) — the call never propagates an exception: the
try/except structure always returns normally (`Except.ok`) with a boolean
success flag. -/
theorem perform_backup_never_raises (o : Oracle) (now : DateTime) (fs : FS)
    (source_folder base_destination_folder : BPath) (compress : Bool) :
    ∃ result fs',
      perform_backup o now fs source_folder base_destination_folder compress =
        (Except.ok result, fs') :=
  perform_backup_total o now fs source_folder base_destination_folder compress

/-- C2: a `perform_backup` call with `compress = False` that returns `True`
produces at the destination path a directory whose tree is identical to the
source tree: for every nonempty relative path the entry below the destination
equals the entry below the source (same file paths, same byte contents, in
both directions).  The file system is assumed well-formed and the computed
destination is assumed disjoint from the source tree. -/
theorem perform_backup_copy_mode_exact {o : Oracle} {now : DateTime} {fs : FS}
    {src bd : BPath} {n : Nat} {fs' : FS} (hwf : FS.wf fs)
    (hsd : pathUnder src (full_destination_path src bd false now) = false)
    (hds : pathUnder (full_destination_path src bd false now) src = false)
    (h : perform_backup o now fs src bd false = (Except.ok (true, n), fs')) :
    getEntry fs' (full_destination_path src bd false now) = some Entry.dir ∧
    ∀ r, ¬ r = [] →
      getEntry fs' (full_destination_path src bd false now ++ r) =
        getEntry fs (src ++ r) := by
  obtain ⟨h1, h2, -, -⟩ := copy_run_spec hwf hsd hds h
  exact ⟨h1, h2⟩

/-- Witness for C2: the concrete run from `exSrcFS` satisfies the hypotheses,
and the copied tree agrees with the source at the file `a`. -/
theorem perform_backup_copy_mode_exact_witness :
    FS.wf exSrcFS ∧
    pathUnder ["s"] (full_destination_path ["s"] ["d"] false exT0) = false ∧
    pathUnder (full_destination_path ["s"] ["d"] false exT0) ["s"] = false ∧
    getEntry exCopyResultFS (full_destination_path ["s"] ["d"] false exT0) =
      some Entry.dir ∧
    getEntry exCopyResultFS (full_destination_path ["s"] ["d"] false exT0 ++ ["a"]) =
      getEntry exSrcFS (["s"] ++ ["a"]) :=
  ⟨by decide, by decide, by decide,
   (perform_backup_copy_mode_exact (by decide) (by decide) (by decide) exCopyRun).1,
   (perform_backup_copy_mode_exact (by decide) (by decide) (by decide) exCopyRun).2
     ["a"] (by decide)⟩

/-- C3 counterexample: for a source tree whose only content is an empty
subdirectory, a successful `compress = True` run produces a zip archive with
no entries at all, while the source tree does contain the directory `empty`:
the archive does not match the source tree "including any empty directories"
as the claim states. -/
theorem zip_mode_omits_empty_dir :
    perform_backup Oracle.allOk exT0 exEmptyDirFS ["s"] ["d"] true =
      (Except.ok (true, 0), exEmptyZipResultFS) ∧
    getEntry exEmptyZipResultFS (full_destination_path ["s"] ["d"] true exT0) =
      some (Entry.zipFile []) ∧
    getEntry exEmptyDirFS (["s"] ++ ["empty"]) = some Entry.dir ∧
    (∀ entries (e : Entry),
      getEntry exEmptyZipResultFS (full_destination_path ["s"] ["d"] true exT0) =
        some (Entry.zipFile entries) → ¬ (["empty"], e) ∈ entries) := by
  refine ⟨rfl, rfl, rfl, ?_⟩
  intro entries e hg hmem
  have h0 : some (Entry.zipFile ([] : List (BPath × Entry))) =
      some (Entry.zipFile entries) := by
    rw [← hg]
    rfl
  injection h0 with h1
  injection h1 with h2
  rw [← h2] at hmem
  cases hmem

/-- C3 (amended): a `perform_backup` call with `compress = True` that returns
`True` produces at the destination path a zip archive whose entries are
exactly the non-directory files of the source tree — each entry's relative
path and contents match the corresponding source file, and directories
(including empty ones) are omitted.  The file system is assumed well-formed
and the destination disjoint from the source tree. -/
theorem perform_backup_zip_mode_files_exact {o : Oracle} {now : DateTime}
    {fs : FS} {src bd : BPath} {n : Nat} {fs' : FS} (hwf : FS.wf fs)
    (hsd : pathUnder src (full_destination_path src bd true now) = false)
    (hds : pathUnder (full_destination_path src bd true now) src = false)
    (h : perform_backup o now fs src bd true = (Except.ok (true, n), fs')) :
    ∃ entries,
      getEntry fs' (full_destination_path src bd true now) =
        some (Entry.zipFile entries) ∧
      ∀ r e, ((r, e) ∈ entries ↔
        (¬ r = [] ∧ getEntry fs (src ++ r) = some e ∧ ¬ e = Entry.dir)) := by
  obtain ⟨h1, -, -⟩ := zip_run_spec hwf hsd hds h
  exact ⟨walkFiles fs src, h1, fun r e => mem_walkFiles_iff fs src r e hwf.1⟩

/-- Witness for the amended C3: the concrete compressed run from `exSrcFS`. -/
theorem perform_backup_zip_mode_files_exact_witness :
    FS.wf exSrcFS ∧
    pathUnder ["s"] (full_destination_path ["s"] ["d"] true exT0) = false ∧
    pathUnder (full_destination_path ["s"] ["d"] true exT0) ["s"] = false ∧
    ∃ entries,
      getEntry exZipResultFS (full_destination_path ["s"] ["d"] true exT0) =
        some (Entry.zipFile entries) ∧
      ∀ r e, ((r, e) ∈ entries ↔
        (¬ r = [] ∧ getEntry exSrcFS (["s"] ++ r) = some e ∧ ¬ e = Entry.dir)) :=
  ⟨by decide, by decide, by decide,
   perform_backup_zip_mode_files_exact (by decide) (by decide) (by decide) exZipRun⟩

/-- C4: every successful `perform_backup` call leaves its artifact at exactly
`<base_destination_folder>/<basename of source>_<YYYY-MM-DD_HH-MM-SS>_v1.0.0`,
with `.zip` appended exactly when `compress` is true; the timestamp components
are zero-padded and the version component is the static string `v1.0.0`. -/
theorem perform_backup_artifact_path {o : Oracle} {now : DateTime} {fs : FS}
    {src bd : BPath} {compress : Bool} {n : Nat} {fs' : FS}
    (h : perform_backup o now fs src bd compress = (Except.ok (true, n), fs')) :
    pathExists fs' (bd ++
      [if compress then
        basename src ++ "_" ++
          (pad4 now.year ++ "-" ++ pad2 now.month ++ "-" ++ pad2 now.day ++ "_" ++
           pad2 now.hour ++ "-" ++ pad2 now.minute ++ "-" ++ pad2 now.second) ++
          "_" ++ "v1.0.0" ++ ".zip"
       else
        basename src ++ "_" ++
          (pad4 now.year ++ "-" ++ pad2 now.month ++ "-" ++ pad2 now.day ++ "_" ++
           pad2 now.hour ++ "-" ++ pad2 now.minute ++ "-" ++ pad2 now.second) ++
          "_" ++ "v1.0.0"]) = true := by
  have heq : bd ++
      [if compress then
        basename src ++ "_" ++
          (pad4 now.year ++ "-" ++ pad2 now.month ++ "-" ++ pad2 now.day ++ "_" ++
           pad2 now.hour ++ "-" ++ pad2 now.minute ++ "-" ++ pad2 now.second) ++
          "_" ++ "v1.0.0" ++ ".zip"
       else
        basename src ++ "_" ++
          (pad4 now.year ++ "-" ++ pad2 now.month ++ "-" ++ pad2 now.day ++ "_" ++
           pad2 now.hour ++ "-" ++ pad2 now.minute ++ "-" ++ pad2 now.second) ++
          "_" ++ "v1.0.0"] = full_destination_path src bd compress now := by
    rw [full_destination_path, generate_backup_folder_name, strftimeTimestamp]
  rw [heq]
  exact run_artifact_at_dest h

/-- Witness for C4: the concrete non-compressed run from `exSrcFS`. -/
theorem perform_backup_artifact_path_witness :
    pathExists exCopyResultFS (["d"] ++
      [if false then
        basename ["s"] ++ "_" ++
          (pad4 exT0.year ++ "-" ++ pad2 exT0.month ++ "-" ++ pad2 exT0.day ++ "_" ++
           pad2 exT0.hour ++ "-" ++ pad2 exT0.minute ++ "-" ++ pad2 exT0.second) ++
          "_" ++ "v1.0.0" ++ ".zip"
       else
        basename ["s"] ++ "_" ++
          (pad4 exT0.year ++ "-" ++ pad2 exT0.month ++ "-" ++ pad2 exT0.day ++ "_" ++
           pad2 exT0.hour ++ "-" ++ pad2 exT0.minute ++ "-" ++ pad2 exT0.second) ++
          "_" ++ "v1.0.0"]) = true :=
  perform_backup_artifact_path exCopyRun

/-- C5: when the computed destination path already holds an artifact, a
successful run overwrites it: the pre-existing entry is deleted before the
new backup is written, so afterwards the destination holds exactly the fresh
backup of the source tree (no merge with, and no remnant of, the old
artifact).  In copy mode the destination subtree equals the source subtree
pointwise; in zip mode the destination holds the freshly written archive. -/
theorem perform_backup_overwrites_artifact {o : Oracle} {now : DateTime}
    {fs : FS} {src bd : BPath} {compress : Bool} {n : Nat} {fs' : FS}
    (hwf : FS.wf fs)
    (hsd : pathUnder src (full_destination_path src bd compress now) = false)
    (hds : pathUnder (full_destination_path src bd compress now) src = false)
    (hpre : pathExists fs (full_destination_path src bd compress now) = true)
    (h : perform_backup o now fs src bd compress = (Except.ok (true, n), fs')) :
    (compress = false →
      getEntry fs' (full_destination_path src bd compress now) = some Entry.dir ∧
      ∀ r, ¬ r = [] →
        getEntry fs' (full_destination_path src bd compress now ++ r) =
          getEntry fs (src ++ r)) ∧
    (compress = true →
      getEntry fs' (full_destination_path src bd compress now) =
        some (Entry.zipFile (walkFiles fs src))) := by
  constructor
  · intro hc
    subst hc
    obtain ⟨h1, h2, -, -⟩ := copy_run_spec hwf hsd hds h
    exact ⟨h1, h2⟩
  · intro hc
    subst hc
    exact (zip_run_spec hwf hsd hds h).1

/-- Witness for C5: running over `exStaleFS`, whose destination path holds an
old artifact with a stale file, yields a fresh tree in which the stale file is
gone (both sides of the final equation evaluate to `none`). -/
theorem perform_backup_overwrites_artifact_witness :
    FS.wf exStaleFS ∧
    pathExists exStaleFS (full_destination_path ["s"] ["d"] false exT0) = true ∧
    getEntry exCopyResultFS (full_destination_path ["s"] ["d"] false exT0) =
      some Entry.dir ∧
    getEntry exCopyResultFS (full_destination_path ["s"] ["d"] false exT0 ++ ["stale"]) =
      getEntry exStaleFS (["s"] ++ ["stale"]) :=
  ⟨by decide, by decide,
   ((perform_backup_overwrites_artifact (by decide) (by decide) (by decide)
      (by decide) exStaleRun).1 rfl).1,
   ((perform_backup_overwrites_artifact (by decide) (by decide) (by decide)
      (by decide) exStaleRun).1 rfl).2 ["stale"] (by decide)⟩

/-- C6: for every source path that does not exist or is not a directory,
`perform_backup` returns `False` with files-count 0 and the file system is
left completely unchanged: no artifact is deleted and nothing is created. -/
theorem perform_backup_missing_source_no_effect {o : Oracle} {now : DateTime}
    {fs : FS} {src bd : BPath} {compress : Bool}
    (h : pathExists fs src = false ∨ isdir fs src = false) :
    perform_backup o now fs src bd compress = (Except.ok (false, 0), fs) := by
  rw [perform_backup]
  rcases h with h | h
  · rw [if_pos h]
  · by_cases h1 : pathExists fs src = false
    · rw [if_pos h1]
    · rw [if_neg h1, if_pos h]

/-- Witness for C6: backing up the missing folder `nope` fails and leaves the
state untouched. -/
theorem perform_backup_missing_source_no_effect_witness :
    pathExists exOnlyDirFS ["nope"] = false ∧
    perform_backup Oracle.allOk exT0 exOnlyDirFS ["nope"] ["d"] false =
      (Except.ok (false, 0), exOnlyDirFS) :=
  ⟨by decide, perform_backup_missing_source_no_effect (Or.inl (by decide))⟩

/-- C7: the files-count recorded in the final log line of `perform_backup`
equals, for a successful call, the total number of files in the source tree
(counted recursively over all subfolders, directories not counted), and is 0
for every failed call. -/
theorem perform_backup_logged_files_count {o : Oracle} {now : DateTime}
    {fs : FS} {src bd : BPath} {compress : Bool} {s : Bool} {n : Nat} {fs' : FS}
    (hwf : FS.wf fs)
    (hsd : pathUnder src (full_destination_path src bd compress now) = false)
    (hds : pathUnder (full_destination_path src bd compress now) src = false)
    (h : perform_backup o now fs src bd compress = (Except.ok (s, n), fs')) :
    (s = true → n = count_files_in_folder fs src) ∧ (s = false → n = 0) := by
  constructor
  · intro hs
    subst hs
    cases compress with
    | false => exact (copy_run_spec hwf hsd hds h).2.2.2
    | true => exact (zip_run_spec hwf hsd hds h).2.2
  · intro hs
    subst hs
    exact perform_backup_ok_false h

/-- Witness for C7: the successful concrete run reports exactly the one file
below the source folder. -/
theorem perform_backup_logged_files_count_witness :
    FS.wf exSrcFS ∧ 1 = count_files_in_folder exSrcFS ["s"] :=
  ⟨by decide,
   (perform_backup_logged_files_count (by decide) (by decide) (by decide)
     exCopyRun).1 rfl⟩

/-- C10: `perform_backup` is not atomic on failure.  Concretely: starting from
`exStaleFS`, whose destination path holds the previous backup (including the
file `stale`), a run whose `copytree` raises `PermissionError` returns `False`
— yet the old artifact has already been deleted and is not restored, and no
complete new backup exists: the final state has neither the old `stale` file
nor the new copy of `a` below the destination path. -/
theorem perform_backup_not_atomic_on_failure :
    perform_backup exPermOracle exT0 exStaleFS ["s"] ["d"] false =
      (Except.ok (false, 0), exPermResultFS) ∧
    getEntry exStaleFS (exDest ++ ["stale"]) = some (Entry.file [9]) ∧
    getEntry exPermResultFS (exDest ++ ["stale"]) = none ∧
    getEntry exPermResultFS (exDest ++ ["a"]) = none :=
  ⟨rfl, rfl, rfl, rfl⟩

/-- C8: loading a configuration file whose contents are not valid JSON
(`json.JSONDecodeError`) replaces it with the default record: `_load_config`
returns the defaults to the application and writes them back to the file; the
defaults map `source_folder` and `destination_folder` to `""`,
`compress_backup` to `False`, and `backup_interval_days` to `7`. -/
theorem load_config_replaces_corrupted (raw : String) :
    load_config (ConfigFile.corrupted raw) =
      (default_config, ConfigFile.storedJson default_config) ∧
    lookupKey default_config "source_folder" = some (JVal.jstr "") ∧
    lookupKey default_config "destination_folder" = some (JVal.jstr "") ∧
    lookupKey default_config "compress_backup" = some (JVal.jbool false) ∧
    lookupKey default_config "backup_interval_days" = some (JVal.jnat 7) :=
  ⟨rfl, rfl, rfl, rfl, rfl⟩

/-- C9: every configuration the application persists is a JSON object with
exactly the keys `source_folder`, `destination_folder`, `compress_backup`,
`backup_interval_days` (in this order), and saving preferences from the GUI
writes the first three from the GUI state while `backup_interval_days` is
carried over from the loaded configuration unchanged. -/
theorem config_persisted_exact_keys (c : Config) (h : AppPersisted c) :
    c.map Prod.fst = config_keys ∧
    ∀ s d b,
      lookupKey (save_preferences_from_gui c s d b).1 "source_folder" =
        some (JVal.jstr s) ∧
      lookupKey (save_preferences_from_gui c s d b).1 "destination_folder" =
        some (JVal.jstr d) ∧
      lookupKey (save_preferences_from_gui c s d b).1 "compress_backup" =
        some (JVal.jbool b) ∧
      lookupKey (save_preferences_from_gui c s d b).1 "backup_interval_days" =
        lookupKey c "backup_interval_days" := by
  constructor
  · induction h with
    | defaultConfig => rfl
    | savedFromGui c s d b hc ih => exact save_preferences_keys c s d b ih
  · intro s d b
    refine ⟨?_, ?_, ?_, ?_⟩
    · show lookupKey (setKey (setKey (setKey c "source_folder" (JVal.jstr s))
        "destination_folder" (JVal.jstr d)) "compress_backup" (JVal.jbool b))
        "source_folder" = some (JVal.jstr s)
      rw [lookupKey_setKey_ne _ _ (by decide), lookupKey_setKey_ne _ _ (by decide),
        lookupKey_setKey_self]
    · show lookupKey (setKey (setKey (setKey c "source_folder" (JVal.jstr s))
        "destination_folder" (JVal.jstr d)) "compress_backup" (JVal.jbool b))
        "destination_folder" = some (JVal.jstr d)
      rw [lookupKey_setKey_ne _ _ (by decide), lookupKey_setKey_self]
    · show lookupKey (setKey (setKey (setKey c "source_folder" (JVal.jstr s))
        "destination_folder" (JVal.jstr d)) "compress_backup" (JVal.jbool b))
        "compress_backup" = some (JVal.jbool b)
      rw [lookupKey_setKey_self]
    · show lookupKey (setKey (setKey (setKey c "source_folder" (JVal.jstr s))
        "destination_folder" (JVal.jstr d)) "compress_backup" (JVal.jbool b))
        "backup_interval_days" = lookupKey c "backup_interval_days"
      rw [lookupKey_setKey_ne _ _ (by decide), lookupKey_setKey_ne _ _ (by decide),
        lookupKey_setKey_ne _ _ (by decide)]

/-- Witness for C9: the default configuration is app-persisted; its key list
is exactly the four keys, and saving GUI preferences over it carries
`backup_interval_days` over unchanged. -/
theorem config_persisted_exact_keys_witness :
    AppPersisted default_config ∧
    default_config.map Prod.fst = config_keys ∧
    lookupKey (save_preferences_from_gui default_config "a" "b" true).1
      "backup_interval_days" = lookupKey default_config "backup_interval_days" :=
  ⟨AppPersisted.defaultConfig,
   (config_persisted_exact_keys default_config AppPersisted.defaultConfig).1,
   ((config_persisted_exact_keys default_config AppPersisted.defaultConfig).2
     "a" "b" true).2.2.2⟩
